import Mathlib

/-!
Shallow embedding of the `universal-rsa-crypto` TypeScript library
(`src/index.ts`) and proofs about its specification claims.

Modelling conventions:
* JavaScript strings are modelled by the list of their UTF-8 bytes
  (`List Nat`, each entry < 256); the UTF-8 codec itself is a standard
  lossless transform and is out of scope per the spec.
* Arbitrary JSON-serialisable data (`data: any`) is modelled by the
  inductive `JVal`; a top-level `JVal.jstr` is a JavaScript string (the
  `typeof data === 'string'` branch), every other constructor is a
  non-string JSON value.
* JSON numbers are modelled by their decimal source token (a byte list),
  since the round-trip behaviour of `JSON.stringify`/`JSON.parse` on the
  integer fragment is what the claims exercise; float formatting is not
  modelled.
* `bigint-crypto-utils` primitives (`modPow`, `modInv`, `gcd`, `prime`)
  are external trusted collaborators per the spec; they are embedded by
  their mathematical contracts (`modPow b e n = b ^ e % n`, `modInv` via
  the extended Euclidean algorithm, `prime` as an oracle stream of
  primes passed to the key-generation loop).
* Hexadecimal digits are modelled by their numeric value 0..15; the hex
  strings of the source (`toString(16)`, `Buffer.from(hex, 'hex')`) are
  modelled by digit lists.
* Node's `Buffer.from(s, 'base64')` never throws: it decodes leniently,
  ignoring bytes outside the base64 alphabet.  `b64decode` models this
  by filtering through `b64SextetOfChar`.
-/

-- ============================================================================
-- BYTES, HEX DIGITS AND BIG-INTEGER CONVERSIONS
-- ============================================================================

/-- Decimal digit byte test, bytes 48-57 are the characters 0-9. -/
def isDigit (b : Nat) : Bool := 48 ≤ b && b ≤ 57

/-- JSON whitespace bytes: space, tab, line feed, carriage return. -/
def isWS (b : Nat) : Bool := b == 32 || b == 9 || b == 10 || b == 13

/-- Drop leading JSON whitespace. -/
def skipWS : List Nat → List Nat
  | [] => []
  | c :: r => if isWS c then skipWS r else c :: r

/-- Every entry is a genuine byte value. -/
def bytesOK (bs : List Nat) : Bool := bs.all (fun b => b < 256)

/-- Character code of a hex digit as emitted by `BigInt.toString(16)`
(lowercase). -/
def hexDigitChar (d : Nat) : Nat := if d < 10 then 48 + d else 87 + d

/-- Numeric value of a hex digit character, accepting both cases. -/
def hexDigitVal (b : Nat) : Option Nat :=
  if 48 ≤ b && b ≤ 57 then some (b - 48)
  else if 97 ≤ b && b ≤ 102 then some (b - 87)
  else if 65 ≤ b && b ≤ 70 then some (b - 55)
  else none

/-- Minimal big-endian hex digit list of a natural number, the model of
`n.toString(16)`; the digit list of 0 is `[0]`, matching JavaScript. -/
def hexRep (n : Nat) : List Nat :=
  if _h : n < 16 then [n] else hexRep (n / 16) ++ [n % 16]
  decreasing_by exact Nat.div_lt_self (by omega) (by omega)

/-- Big-endian hex digit list of a byte list, the model of
`buffer.toString('hex')`. -/
def bytesToHex (bs : List Nat) : List Nat := bs.flatMap (fun b => [b / 16, b % 16])

/-- Value of a big-endian hex digit list, the model of `BigInt('0x' + hex)`. -/
def hexToNat (ds : List Nat) : Nat := ds.foldl (fun a d => 16 * a + d) 0

/-- Value of a big-endian byte list as a base-256 integer. -/
def bytesToNat (bs : List Nat) : Nat := bs.foldl (fun a b => 256 * a + b) 0

/-- Model of `hex.length > 0 ? BigInt('0x' + hex) : 0n` applied to
`buffer.toString('hex')` (used by both `dataToBigInt` and `base64ToBigInt`). -/
def bufToBigInt (bs : List Nat) : Nat :=
  let hex := bytesToHex bs
  if 0 < hex.length then hexToNat hex else 0

/-- Pair up hex digits into bytes, the model of `Buffer.from(paddedHex, 'hex')`
(inputs always have even length in the source because of the padding step). -/
def hexToBytes : List Nat → List Nat
  | d1 :: d2 :: rest => (d1 * 16 + d2) :: hexToBytes rest
  | _ => []

/-- Byte list of a natural number: minimal hex representation, left-padded
with one 0 nibble when the digit count is odd, then paired into bytes.
This is the shared core of `bigIntToData` and `bigIntToBase64`. -/
def bigIntToBytes (n : Nat) : List Nat :=
  let hex := hexRep n
  hexToBytes (if hex.length % 2 = 1 then 0 :: hex else hex)

/-- Minimal decimal digit list of a natural number, the model of
`bigintValue.toString()` used by `exportKey`. -/
def decRep (n : Nat) : List Nat :=
  if _h : n < 10 then [48 + n] else decRep (n / 10) ++ [48 + n % 10]
  decreasing_by exact Nat.div_lt_self (by omega) (by omega)

/-- Accumulator loop for decimal parsing; fails on any non-digit byte. -/
def parseDecGo : List Nat → Nat → Option Nat
  | [], acc => some acc
  | c :: r, acc => if isDigit c then parseDecGo r (10 * acc + (c - 48)) else none

/-- Model of `BigInt(string)` restricted to the decimal forms the library
produces; `BigInt('')` is `0n` in JavaScript, modelled by the empty case.
The exotic coercions of `BigInt` (hex prefixes, whitespace trimming,
booleans) are outside the model. -/
def parseDec : List Nat → Option Nat
  | [] => some 0
  | c :: r => parseDecGo (c :: r) 0

-- ============================================================================
-- BASE64 (standard alphabet, Node-style lenient decoding)
-- ============================================================================

/-- Character code of a six-bit group in the standard base64 alphabet. -/
def b64CharOfSextet (s : Nat) : Nat :=
  if s < 26 then 65 + s
  else if s < 52 then 71 + s
  else if s < 62 then s - 4
  else if s = 62 then 43
  else 47

/-- Six-bit value of a base64 alphabet character; `none` for padding and
any byte outside the alphabet. -/
def b64SextetOfChar (c : Nat) : Option Nat :=
  if 65 ≤ c && c ≤ 90 then some (c - 65)
  else if 97 ≤ c && c ≤ 122 then some (c - 71)
  else if 48 ≤ c && c ≤ 57 then some (c + 4)
  else if c = 43 then some 62
  else if c = 47 then some 63
  else none

/-- Base64-encode a byte list, the model of `buffer.toString('base64')`;
61 is the padding character. -/
def b64encode : List Nat → List Nat
  | b0 :: b1 :: b2 :: rest =>
    b64CharOfSextet (b0 / 4) :: b64CharOfSextet ((b0 % 4) * 16 + b1 / 16) ::
    b64CharOfSextet ((b1 % 16) * 4 + b2 / 64) :: b64CharOfSextet (b2 % 64) :: b64encode rest
  | [b0, b1] =>
    [b64CharOfSextet (b0 / 4), b64CharOfSextet ((b0 % 4) * 16 + b1 / 16),
     b64CharOfSextet ((b1 % 16) * 4), 61]
  | [b0] => [b64CharOfSextet (b0 / 4), b64CharOfSextet ((b0 % 4) * 16), 61, 61]
  | [] => []

/-- Reassemble bytes from six-bit groups (4 groups to 3 bytes, trailing
3 groups to 2 bytes, trailing 2 groups to 1 byte). -/
def decodeSextets : List Nat → List Nat
  | s0 :: s1 :: s2 :: s3 :: rest =>
    (s0 * 4 + s1 / 16) :: ((s1 % 16) * 16 + s2 / 4) :: ((s2 % 4) * 64 + s3) :: decodeSextets rest
  | [s0, s1, s2] => [s0 * 4 + s1 / 16, (s1 % 16) * 16 + s2 / 4]
  | [s0, s1] => [s0 * 4 + s1 / 16]
  | _ => []

/-- Model of Node's lenient `Buffer.from(s, 'base64')`: bytes outside the
base64 alphabet (including padding) are ignored, then six-bit groups are
reassembled into bytes.  It never fails. -/
def b64decode (s : List Nat) : List Nat := decodeSextets (s.filterMap b64SextetOfChar)

-- ============================================================================
-- JSON VALUES, SERIALISATION AND PARSING
-- ============================================================================

/-- JSON-serialisable JavaScript values.  A top-level `jstr` is a
JavaScript string (its UTF-8 bytes); `jnum` carries the decimal source
token of the number. -/
inductive JVal where
  | jnull
  | jbool (b : Bool)
  | jnum (t : List Nat)
  | jstr (s : List Nat)
  | jarr (xs : List JVal)
  | jobj (fs : List (List Nat × JVal))

/-- String escaping as performed by `JSON.stringify`: quote, backslash and
the named control characters get two-byte escapes, other control bytes get
a lowercase u-escape, everything else is emitted verbatim. -/
def escapeByte (b : Nat) : List Nat :=
  if b = 34 then [92, 34]
  else if b = 92 then [92, 92]
  else if b = 8 then [92, 98]
  else if b = 9 then [92, 116]
  else if b = 10 then [92, 110]
  else if b = 12 then [92, 102]
  else if b = 13 then [92, 114]
  else if b < 32 then [92, 117, 48, 48, hexDigitChar (b / 16), hexDigitChar (b % 16)]
  else [b]

/-- Escape every byte of a string body. -/
def escStr (s : List Nat) : List Nat := s.flatMap escapeByte

/-- Emit a JSON string literal: quote, escaped body, quote. -/
def quoteStr (s : List Nat) : List Nat := 34 :: (escStr s ++ [34])

mutual

/-- Model of `JSON.stringify` (compact form, no whitespace), producing the
UTF-8 bytes of the JSON text. -/
def stringifyV : JVal → List Nat
  | .jnull => [110, 117, 108, 108]
  | .jbool true => [116, 114, 117, 101]
  | .jbool false => [102, 97, 108, 115, 101]
  | .jnum t => t
  | .jstr s => quoteStr s
  | .jarr xs => 91 :: (stringifyArr xs ++ [93])
  | .jobj fs => 123 :: (stringifyObj fs ++ [125])

/-- Comma-separated serialisation of array elements. -/
def stringifyArr : List JVal → List Nat
  | [] => []
  | [x] => stringifyV x
  | x :: xs => stringifyV x ++ 44 :: stringifyArr xs

/-- Comma-separated serialisation of object fields (insertion order, as
JavaScript objects preserve it). -/
def stringifyObj : List (List Nat × JVal) → List Nat
  | [] => []
  | [(k, v)] => quoteStr k ++ 58 :: stringifyV v
  | (k, v) :: fs => quoteStr k ++ 58 :: stringifyV v ++ 44 :: stringifyObj fs

end

/-- Unescaped byte of a two-character escape sequence, if the second
character is one of the simple escapes. -/
def simpleEscape (e : Nat) : Option Nat :=
  if e = 34 then some 34
  else if e = 92 then some 92
  else if e = 47 then some 47
  else if e = 98 then some 8
  else if e = 102 then some 12
  else if e = 110 then some 10
  else if e = 114 then some 13
  else if e = 116 then some 9
  else none

mutual

/-- Parse the body of a JSON string literal after the opening quote,
returning the unescaped content and the input after the closing quote. -/
def parseStrBody : List Nat → Option (List Nat × List Nat)
  | [] => none
  | c :: r =>
    if c = 34 then some ([], r)
    else if c = 92 then parseEsc r
    else if c < 32 then none
    else (parseStrBody r).map (fun p => (c :: p.1, p.2))

/-- Continue a string body after a backslash: a simple escape, or a
u-escape. -/
def parseEsc : List Nat → Option (List Nat × List Nat)
  | [] => none
  | e :: r2 =>
    (simpleEscape e).elim
      (if e = 117 then parseU r2 else none)
      (fun u => (parseStrBody r2).map (fun p => (u :: p.1, p.2)))

/-- Continue a string body after a backslash-u: four hex digits.  The
model covers code points below 128 (which is everything `JSON.stringify`
emits as u-escapes); larger code points would need the UTF-8 encoder,
which is out of scope. -/
def parseU : List Nat → Option (List Nat × List Nat)
  | h1 :: h2 :: h3 :: h4 :: r3 =>
    (hexDigitVal h1).bind (fun a =>
      (hexDigitVal h2).bind (fun b =>
        (hexDigitVal h3).bind (fun cc =>
          (hexDigitVal h4).bind (fun d =>
            if ((a * 16 + b) * 16 + cc) * 16 + d < 128 then
              (parseStrBody r3).map (fun p => ((((a * 16 + b) * 16 + cc) * 16 + d) :: p.1, p.2))
            else none))))
  | _ => none

end

/-- Longest prefix of decimal digits together with the remainder. -/
def spanDigits : List Nat → List Nat × List Nat
  | [] => ([], [])
  | c :: r =>
    if isDigit c then
      let p := spanDigits r
      (c :: p.1, p.2)
    else ([], c :: r)

/-- Continue the integer part after a leading 0: a following digit is
rejected, as in JSON. -/
def parseZero : List Nat → Option (List Nat × List Nat)
  | [] => some ([48], [])
  | d :: r => if isDigit d then none else some ([48], d :: r)

/-- Integer part of a JSON number: a single 0, or a nonzero digit followed
by digits. -/
def parseIntPart : List Nat → Option (List Nat × List Nat)
  | [] => none
  | c :: r =>
    if c = 48 then parseZero r
    else if isDigit c then some (c :: (spanDigits r).1, (spanDigits r).2)
    else none

/-- Optional fraction part of a JSON number. -/
def parseFrac : List Nat → Option (List Nat × List Nat)
  | [] => some ([], [])
  | c :: r =>
    if c = 46 then
      (if (spanDigits r).1.isEmpty then none
       else some (46 :: (spanDigits r).1, (spanDigits r).2))
    else some ([], c :: r)

/-- Exponent digits after the marker (and optional sign): at least one
digit is required. -/
def expDigits (tok : List Nat) (r : List Nat) : Option (List Nat × List Nat) :=
  if (spanDigits r).1.isEmpty then none
  else some (tok ++ (spanDigits r).1, (spanDigits r).2)

/-- Exponent after the e or E marker: an optional sign, then digits. -/
def expSigned (c : Nat) : List Nat → Option (List Nat × List Nat)
  | [] => none
  | s2 :: r2 =>
    if s2 = 43 || s2 = 45 then expDigits [c, s2] r2
    else expDigits [c] (s2 :: r2)

/-- Optional exponent part of a JSON number. -/
def parseExp : List Nat → Option (List Nat × List Nat)
  | [] => some ([], [])
  | c :: r =>
    if c = 101 || c = 69 then expSigned c r
    else some ([], c :: r)

/-- Sign token of a JSON number: a leading minus, or nothing. -/
def numSign : List Nat → List Nat
  | [] => []
  | c :: _ => if c = 45 then [45] else []

/-- Input after an optional leading minus. -/
def numTail : List Nat → List Nat
  | [] => []
  | c :: r => if c = 45 then r else c :: r

/-- Parse a JSON number, returning its source token verbatim. -/
def parseNum (s : List Nat) : Option (JVal × List Nat) :=
  (parseIntPart (numTail s)).bind (fun ip =>
    (parseFrac ip.2).bind (fun fp =>
      (parseExp fp.2).map (fun ep =>
        (.jnum (numSign s ++ ip.1 ++ fp.1 ++ ep.1), ep.2))))

/-- Match an expected literal word (byte by byte), returning the
remainder on success. -/
def dropWord : List Nat → List Nat → Option (List Nat)
  | [], r => some r
  | _ :: _, [] => none
  | w :: ws, c :: r => if c = w then dropWord ws r else none

mutual

/-- Recursive-descent JSON value parser with explicit fuel (every cycle
through the mutual functions steps the fuel down, so the recursion is
well-founded on the pair of fuel and parsing stage).  The entry point
`parse` supplies fuel `length + 1`, which suffices because each fuel unit
is paid for by consumed input. -/
def parseVal : Nat → List Nat → Option (JVal × List Nat)
  | 0, _ => none
  | fuel + 1, s => parseValCore fuel (skipWS s)
  termination_by fuel _ => (fuel, 0)

/-- Dispatch on the first significant byte of a JSON value. -/
def parseValCore : Nat → List Nat → Option (JVal × List Nat)
  | _, [] => none
  | fuel, c :: r =>
    if c = 110 then (dropWord [117, 108, 108] r).map (fun r2 => (.jnull, r2))
    else if c = 116 then (dropWord [114, 117, 101] r).map (fun r2 => (.jbool true, r2))
    else if c = 102 then (dropWord [97, 108, 115, 101] r).map (fun r2 => (.jbool false, r2))
    else if c = 34 then (parseStrBody r).map (fun p => (.jstr p.1, p.2))
    else if c = 91 then parseArrBody fuel (skipWS r)
    else if c = 123 then parseObjBody fuel (skipWS r)
    else if c = 45 || isDigit c then parseNum (c :: r)
    else none
  termination_by fuel s => (fuel, 5)

/-- Continue after an opening bracket: an empty array or its elements. -/
def parseArrBody : Nat → List Nat → Option (JVal × List Nat)
  | _, [] => none
  | fuel, c :: r =>
    if c = 93 then some (.jarr [], r)
    else (parseElems fuel (c :: r)).map (fun p => (.jarr p.1, p.2))
  termination_by fuel s => (fuel, 4)

/-- Continue after an opening brace: an empty object or its fields. -/
def parseObjBody : Nat → List Nat → Option (JVal × List Nat)
  | _, [] => none
  | fuel, c :: r =>
    if c = 125 then some (.jobj [], r)
    else (parseFields fuel (c :: r)).map (fun p => (.jobj p.1, p.2))
  termination_by fuel s => (fuel, 4)

/-- Parse one or more comma-separated array elements up to the closing
bracket. -/
def parseElems : Nat → List Nat → Option (List JVal × List Nat)
  | 0, _ => none
  | fuel + 1, s =>
    (parseVal fuel s).bind (fun p => parseElemsTail fuel p.1 (skipWS p.2))
  termination_by fuel _ => (fuel, 3)

/-- Continue after an array element: a comma and more elements, or the
closing bracket. -/
def parseElemsTail : Nat → JVal → List Nat → Option (List JVal × List Nat)
  | _, _, [] => none
  | fuel, v, c :: r =>
    if c = 44 then (parseElems fuel r).map (fun p => (v :: p.1, p.2))
    else if c = 93 then some ([v], r)
    else none
  termination_by fuel v s => (fuel, 4)

/-- Parse one or more comma-separated object fields up to the closing
brace. -/
def parseFields : Nat → List Nat → Option (List (List Nat × JVal) × List Nat)
  | 0, _ => none
  | fuel + 1, s => parseFieldsCore fuel (skipWS s)
  termination_by fuel _ => (fuel, 3)

/-- A field starts with a quoted key. -/
def parseFieldsCore : Nat → List Nat → Option (List (List Nat × JVal) × List Nat)
  | _, [] => none
  | fuel, c :: r =>
    if c = 34 then (parseStrBody r).bind (fun p => parseFieldsKey fuel p.1 (skipWS p.2))
    else none
  termination_by fuel s => (fuel, 6)

/-- After a key: a colon and the field value. -/
def parseFieldsKey : Nat → List Nat → List Nat → Option (List (List Nat × JVal) × List Nat)
  | _, _, [] => none
  | fuel, k, c :: r =>
    if c = 58 then (parseVal fuel r).bind (fun p => parseFieldsVal fuel k p.1 (skipWS p.2))
    else none
  termination_by fuel k s => (fuel, 5)

/-- After a field value: a comma and more fields, or the closing brace. -/
def parseFieldsVal : Nat → List Nat → JVal → List Nat →
    Option (List (List Nat × JVal) × List Nat)
  | _, _, _, [] => none
  | fuel, k, v, c :: r =>
    if c = 44 then (parseFields fuel r).map (fun p => ((k, v) :: p.1, p.2))
    else if c = 125 then some ([(k, v)], r)
    else none
  termination_by fuel k v s => (fuel, 4)

end

/-- Model of `JSON.parse` on UTF-8 bytes: parse one value and require that
only whitespace remains. -/
def parse (s : List Nat) : Option JVal :=
  match parseVal (s.length + 1) s with
  | some (v, r) => if (skipWS r).isEmpty then some v else none
  | none => none

-- ============================================================================
-- WELL-FORMEDNESS OF MODELLED VALUES
-- ============================================================================

/-- Nonzero-leading decimal digit run. -/
def posTok : List Nat → Bool
  | c :: cs => 49 ≤ c && c ≤ 57 && cs.all isDigit
  | [] => false

/-- Canonical integer number token as `JSON.stringify` emits for integral
JavaScript numbers: `0`, or an optional minus sign followed by a
nonzero-leading digit run. -/
def intTokOK (t : List Nat) : Bool :=
  match t with
  | [] => false
  | c :: r =>
    if c = 48 then r.isEmpty
    else if c = 45 then posTok r
    else posTok (c :: r)

/-- Key absent from the remaining fields (JavaScript objects cannot repeat
keys). -/
def keyNotIn (k : List Nat) : List (List Nat × JVal) → Bool
  | [] => true
  | (k2, _) :: fs => !(k2 == k) && keyNotIn k fs

mutual

/-- Well-formed modelled JSON value: genuine bytes in strings and keys,
canonical integer number tokens, no repeated object keys. -/
def WFv : JVal → Bool
  | .jnull => true
  | .jbool _ => true
  | .jnum t => intTokOK t
  | .jstr s => bytesOK s
  | .jarr xs => WFarr xs
  | .jobj fs => WFobj fs

/-- Well-formedness of array elements. -/
def WFarr : List JVal → Bool
  | [] => true
  | x :: xs => WFv x && WFarr xs

/-- Well-formedness of object fields. -/
def WFobj : List (List Nat × JVal) → Bool
  | [] => true
  | (k, v) :: fs => bytesOK k && WFv v && keyNotIn k fs && WFobj fs

end

/-- First byte (if any) is nonzero; a leading zero byte is lost by the
big-integer round trip. -/
def headNZ : List Nat → Bool
  | [] => true
  | c :: _ => c != 0

/-- Possible first bytes of a serialised JSON value: the letters n, t, f,
a quote, an opening bracket or brace, a minus sign or a digit. -/
def goodHead (c : Nat) : Prop :=
  c = 110 ∨ c = 116 ∨ c = 102 ∨ c = 34 ∨ c = 91 ∨ c = 123 ∨ c = 45 ∨ (48 ≤ c ∧ c ≤ 57)

/-- Well-formedness of a top-level data value for the round-trip claims:
a string must consist of bytes, not start with a zero byte, and not parse
as JSON (otherwise decoding changes its type); any other value must be
well-formed as a JSON value. -/
def WFdata : JVal → Bool
  | .jstr s => bytesOK s && headNZ s && (parse s).isNone
  | v => WFv v

-- ============================================================================
-- KEY TYPES AND THE ENGINE
-- ============================================================================

/-- RSA public key, `{e, n}` of the source. -/
structure PublicKey where
  e : Nat
  n : Nat
deriving DecidableEq

/-- RSA private key, `{d, n}` of the source. -/
structure PrivateKey where
  d : Nat
  n : Nat
deriving DecidableEq

/-- A generated key pair. -/
structure KeyPair where
  publicKey : PublicKey
  privateKey : PrivateKey

/-- State of a `UniversalRSA` instance: zero, one or two keys, fixed at
construction. -/
structure Engine where
  publicKey : Option PublicKey
  privateKey : Option PrivateKey

/-- Message thrown by `encrypt` when no public key is loaded. -/
def pubKeyMissingMsg : String := "A public key is not loaded in this UniversalRSA instance."

/-- Message thrown by `decrypt` when no private key is loaded. -/
def privKeyMissingMsg : String := "A private key is not loaded in this UniversalRSA instance."

/-- Message thrown by `encrypt` when the plaintext integer reaches the
modulus. -/
def dataTooLargeMsg : String := "Data is too large for the given key size."

/-- Modelled from the spec: the message of the MissingKey condition of the
`sign` operation, which is absent from src/src/index.ts (only its callers
in demo.ts and the README are present); the spec words it as a missing
private key condition that names signing. -/
def signMissingKeyMsg : String := "missing private key - signing requires one"

/-- Modelled from the spec: the message of the MissingKey condition of the
`verify` operation, absent from src/src/index.ts; the spec words it as a
missing public key condition that names verification. -/
def verifyMissingKeyMsg : String := "missing public key - verification requires one"

/-- Model of `bcu.modPow`, the external big-integer primitive computing
base-to-the-exponent modulo the modulus. -/
def modPow (b e n : Nat) : Nat := b ^ e % n

/-- Model of `bcu.modInv` via the extended Euclidean algorithm: the
canonical representative of the inverse of `a` modulo `m`. -/
def modInv (a m : Nat) : Nat := ((Nat.gcdA a m % (m : Int) + m) % (m : Int)).toNat

-- ============================================================================
-- DATA CODEC AND TRANSFORM ENGINE
-- ============================================================================

/-- The byte string `dataToBigInt` converts: the string itself for a
JavaScript string, the JSON text otherwise (the
`typeof data === 'string' ? data : JSON.stringify(data)` branch). -/
def dataBytes : JVal → List Nat
  | .jstr s => s
  | v => stringifyV v

/-- Model of `dataToBigInt`: UTF-8 bytes to hex to unsigned big integer,
with the empty string mapping to 0. -/
def dataToBigInt (data : JVal) : Nat := bufToBigInt (dataBytes data)

/-- Model of `bigIntToData`: 0 decodes to the empty string; otherwise take
the even-padded hex bytes, and return the JSON parse of the text when it
succeeds, the raw text otherwise. -/
def bigIntToData (bigIntValue : Nat) : JVal :=
  if bigIntValue = 0 then .jstr []
  else
    let bs := bigIntToBytes bigIntValue
    match parse bs with
    | some v => v
    | none => .jstr bs

/-- Model of `bigIntToBase64`: minimal hex, even-padded, to bytes, to
base64 text. -/
def bigIntToBase64 (bigintValue : Nat) : List Nat := b64encode (bigIntToBytes bigintValue)

/-- Model of `base64ToBigInt`: lenient base64 decode, then hex to big
integer (empty hex gives 0). -/
def base64ToBigInt (base64String : List Nat) : Nat := bufToBigInt (b64decode base64String)

/-- Model of `UniversalRSA.encrypt`: requires a public key, encodes the
data, rejects plaintext integers reaching the modulus, then returns the
base64 text of the modular power. -/
def encrypt (rsa : Engine) (data : JVal) : Except String (List Nat) :=
  match rsa.publicKey with
  | none => .error pubKeyMissingMsg
  | some pk =>
    let messageBigInt := dataToBigInt data
    if pk.n ≤ messageBigInt then .error dataTooLargeMsg
    else .ok (bigIntToBase64 (modPow messageBigInt pk.e pk.n))

/-- Model of `UniversalRSA.decrypt`: requires a private key, decodes the
base64 text, applies the private exponent and decodes the integer back to
data. -/
def decrypt (rsa : Engine) (ciphertextBase64 : List Nat) : Except String JVal :=
  match rsa.privateKey with
  | none => .error privKeyMissingMsg
  | some sk => .ok (bigIntToData (modPow (base64ToBigInt ciphertextBase64) sk.d sk.n))

/-- Modelled from the spec: `sign` is absent from src/src/index.ts (demo.ts
and the README call it).  Per spec section 4.3 it requires a private key,
encodes the data to an integer exactly as encrypt does, computes the
modular power with the private exponent and encodes the result as base64. -/
def sign (rsa : Engine) (data : JVal) : Except String (List Nat) :=
  match rsa.privateKey with
  | none => .error signMissingKeyMsg
  | some sk => .ok (bigIntToBase64 (modPow (dataToBigInt data) sk.d sk.n))

/-- Modelled from the spec: `verify` is absent from src/src/index.ts.  Per
spec section 4.3 it requires a public key, re-encodes the data exactly as
encrypt does, decodes the signature (malformed input yields `false`, never
a failure; the lenient base64 decoder is total), applies the public
exponent and compares exactly. -/
def verify (rsa : Engine) (data : JVal) (signatureB64 : List Nat) : Except String Bool :=
  match rsa.publicKey with
  | none => .error verifyMissingKeyMsg
  | some pk =>
    .ok (decide (modPow (base64ToBigInt signatureB64) pk.e pk.n = dataToBigInt data))

-- ============================================================================
-- KEY GENERATOR
-- ============================================================================

/-- Prime size contract of the generator: the source passes
`bitLength / 2` to `bcu.prime`. -/
def primeBits (bitLength : Nat) : Nat := bitLength / 2

/-- Model of the do-while loop of `UniversalRSA.generateKeys`: `draw k`
is the pair of primes returned by the two `bcu.prime` calls of iteration
`k` (the external randomness oracle), and `fuel` bounds the number of
iterations so the function is total; the loop retries while the primes
coincide or 65537 divides the totient, and otherwise returns
`{publicKey: {e, n}, privateKey: {d, n}}` with `d = modInv e phi`. -/
def generateKeysLoop (draw : Nat → Nat × Nat) : Nat → Nat → Option KeyPair
  | 0, _ => none
  | fuel + 1, k =>
    let p := (draw k).1
    let q := (draw k).2
    let n := p * q
    let phi := (p - 1) * (q - 1)
    if p == q || Nat.gcd 65537 phi != 1 then generateKeysLoop draw fuel (k + 1)
    else some ⟨⟨65537, n⟩, ⟨modInv 65537 phi, n⟩⟩

-- ============================================================================
-- KEY CODEC
-- ============================================================================

/-- Model of `UniversalRSA.exportKey` applied to a field list in insertion
order: each numeric field becomes its decimal string, the mapping is
serialised to JSON text and base64-encoded. -/
def exportKeyFields (fields : List (List Nat × Nat)) : List Nat :=
  b64encode (stringifyV (.jobj (fields.map (fun kv => (kv.1, .jstr (decRep kv.2))))))

/-- `exportKey` on a public key: fields `e`, `n` in declaration order. -/
def exportPublicKey (key : PublicKey) : List Nat :=
  exportKeyFields [([101], key.e), ([110], key.n)]

/-- `exportKey` on a private key: fields `d`, `n` in declaration order. -/
def exportPrivateKey (key : PrivateKey) : List Nat :=
  exportKeyFields [([100], key.d), ([110], key.n)]

/-- Last binding of a key in a parsed JSON object (later duplicate keys win
in `JSON.parse`). -/
def lookupLast (k : List Nat) : List (List Nat × JVal) → Option JVal
  | [] => none
  | (k2, v) :: fs =>
    match lookupLast k fs with
    | some v2 => some v2
    | none => if k2 == k then some v else none

/-- Model of `BigInt(field)` on a parsed JSON field: a decimal string or an
all-digit number token converts; an absent field is `undefined` and
`BigInt(undefined)` throws.  The exotic `BigInt` coercions (booleans,
arrays) are outside the model. -/
def fieldToBigInt : Option JVal → Option Nat
  | some (.jstr s) => parseDec s
  | some (.jnum t) => if !t.isEmpty && t.all isDigit then parseDecGo t 0 else none
  | _ => none

/-- Model of `UniversalRSA.importPublicKey`: lenient base64 decode, JSON
parse (a failure propagates), then `BigInt` conversion of the `e` and `n`
fields. -/
def importPublicKey (b64Key : List Nat) : Option PublicKey :=
  match parse (b64decode b64Key) with
  | some (.jobj fs) =>
    (match fieldToBigInt (lookupLast [101] fs), fieldToBigInt (lookupLast [110] fs) with
     | some e, some n => some ⟨e, n⟩
     | _, _ => none)
  | _ => none

/-- Model of `UniversalRSA.importPrivateKey`: as `importPublicKey` with
fields `d` and `n`. -/
def importPrivateKey (b64Key : List Nat) : Option PrivateKey :=
  match parse (b64decode b64Key) with
  | some (.jobj fs) =>
    (match fieldToBigInt (lookupLast [100] fs), fieldToBigInt (lookupLast [110] fs) with
     | some d, some n => some ⟨d, n⟩
     | _, _ => none)
  | _ => none

-- ============================================================================
-- CONSTRUCTOR
-- ============================================================================

/-- One constructor argument: a key object or a base64 string. -/
def KeyArg (K : Type) : Type := Option (K ⊕ List Nat)

/-- Resolve one constructor argument following the source's truthiness
check `if (keys?.publicKey)`: an absent argument and the empty string are
falsy and leave the slot empty; a nonempty string is imported (an import
failure propagates out of the constructor); a key object is taken as is. -/
def resolveKey {K : Type} (imp : List Nat → Option K) : KeyArg K → Option (Option K)
  | none => some none
  | some (.inl k) => some (some k)
  | some (.inr s) =>
    if s.isEmpty then some none
    else
      match imp s with
      | some k => some (some k)
      | none => none

/-- Model of the `UniversalRSA` constructor: resolve both optional key
arguments; `none` is a thrown import error. -/
def construct (pub : KeyArg PublicKey) (priv : KeyArg PrivateKey) : Option Engine :=
  match resolveKey importPublicKey pub, resolveKey importPrivateKey priv with
  | some p, some s => some ⟨p, s⟩
  | _, _ => none

-- ============================================================================
-- AUXILIARY PREDICATES FOR THE CLAIMS
-- ============================================================================

/-- Whether `pat` occurs at the start of a character list. -/
def listStarts : List Char → List Char → Bool
  | [], _ => true
  | _ :: _, [] => false
  | a :: as, b :: bs => a == b && listStarts as bs

/-- Whether `pat` occurs anywhere inside a character list. -/
def containsSub (pat : List Char) : List Char → Bool
  | [] => listStarts pat []
  | c :: rest => listStarts pat (c :: rest) || containsSub pat rest

/-- A byte of the base64 alphabet proper (excluding padding). -/
def isB64Char (c : Nat) : Bool := (b64SextetOfChar c).isSome

/-- A string made only of base64 alphabet and padding bytes. -/
def isValidB64Str (s : List Nat) : Bool := s.all (fun c => isB64Char c || c == 61)

/-- A concrete prime oracle used to exercise the key-generation loop: every
iteration draws the primes 11 and 13. -/
def drawB : Nat → Nat × Nat := fun _ => (11, 13)

-- ============================================================================
-- LEMMAS: BYTE AND HEX CONVERSIONS
-- ============================================================================

theorem hexToNat_bytesToHex_go (bs : List Nat) (acc : Nat) :
    (bytesToHex bs).foldl (fun a d => 16 * a + d) acc =
      bs.foldl (fun a b => 256 * a + b) acc := by
  induction bs generalizing acc with
  | nil => rfl
  | cons b bs ih =>
    have hb : 16 * (16 * acc + b / 16) + b % 16 = 256 * acc + b := by omega
    show ((b / 16 :: b % 16 :: bytesToHex bs).foldl (fun a d => 16 * a + d) acc) = _
    simp only [List.foldl_cons]
    rw [hb]
    exact ih (256 * acc + b)

theorem hexToNat_bytesToHex (bs : List Nat) : hexToNat (bytesToHex bs) = bytesToNat bs :=
  hexToNat_bytesToHex_go bs 0

theorem bufToBigInt_eq (bs : List Nat) : bufToBigInt bs = bytesToNat bs := by
  cases bs with
  | nil => rfl
  | cons b bs =>
    show (if 0 < (bytesToHex (b :: bs)).length then hexToNat (bytesToHex (b :: bs)) else 0) = _
    rw [if_pos (by simp [bytesToHex])]
    exact hexToNat_bytesToHex (b :: bs)

theorem bytesToNat_go (bs : List Nat) (acc : Nat) :
    bs.foldl (fun a b => 256 * a + b) acc = acc * 256 ^ bs.length + bytesToNat bs := by
  induction bs generalizing acc with
  | nil => simp [bytesToNat]
  | cons b bs ih =>
    simp only [List.foldl_cons, List.length_cons, bytesToNat]
    rw [ih (256 * acc + b), ih (256 * 0 + b)]
    ring

theorem bytesToNat_cons (b : Nat) (bs : List Nat) :
    bytesToNat (b :: bs) = b * 256 ^ bs.length + bytesToNat bs := by
  show (b :: bs).foldl (fun a b => 256 * a + b) 0 = _
  simp only [List.foldl_cons]
  simpa using bytesToNat_go bs b

theorem bytesToNat_lt (bs : List Nat) (h : bytesOK bs = true) :
    bytesToNat bs < 256 ^ bs.length := by
  induction bs with
  | nil => simp [bytesToNat]
  | cons b bs ih =>
    simp only [bytesOK, List.all_cons, Bool.and_eq_true, decide_eq_true_eq] at h
    have h2 : bytesToNat bs < 256 ^ bs.length := ih h.2
    have hX : 0 < 256 ^ bs.length := Nat.pos_pow_of_pos _ (by omega)
    rw [bytesToNat_cons]
    simp only [List.length_cons]
    calc b * 256 ^ bs.length + bytesToNat bs
        < b * 256 ^ bs.length + 256 ^ bs.length := by omega
      _ = (b + 1) * 256 ^ bs.length := by ring
      _ ≤ 256 * 256 ^ bs.length := Nat.mul_le_mul_right _ (by omega)
      _ = 256 ^ (bs.length + 1) := by ring

theorem bytesToNat_lower (b : Nat) (bs : List Nat) (hb : b ≠ 0) :
    256 ^ bs.length ≤ bytesToNat (b :: bs) := by
  rw [bytesToNat_cons]
  calc 256 ^ bs.length = 1 * 256 ^ bs.length := by ring
    _ ≤ b * 256 ^ bs.length := Nat.mul_le_mul_right _ (by omega)
    _ ≤ b * 256 ^ bs.length + bytesToNat bs := Nat.le_add_right _ _

theorem bytesToNat_pos (b : Nat) (bs : List Nat) (hb : b ≠ 0) :
    0 < bytesToNat (b :: bs) :=
  lt_of_lt_of_le (Nat.pos_pow_of_pos _ (by omega)) (bytesToNat_lower b bs hb)

theorem bytesToNat_inj_len : ∀ xs ys : List Nat, xs.length = ys.length →
    bytesOK xs = true → bytesOK ys = true → bytesToNat xs = bytesToNat ys → xs = ys := by
  intro xs
  induction xs with
  | nil => intro ys h _ _ _; cases ys with
    | nil => rfl
    | cons y ys => simp at h
  | cons x xs ih =>
    intro ys hlen hx hy hval
    cases ys with
    | nil => simp at hlen
    | cons y ys =>
      simp only [List.length_cons, Nat.succ.injEq] at hlen
      simp only [bytesOK, List.all_cons, Bool.and_eq_true, decide_eq_true_eq] at hx hy
      rw [bytesToNat_cons, bytesToNat_cons, hlen] at hval
      have hxs : bytesToNat xs < 256 ^ ys.length := by
        rw [← hlen]; exact bytesToNat_lt xs (by
          simpa [bytesOK] using hx.2)
      have hys : bytesToNat ys < 256 ^ ys.length := bytesToNat_lt ys (by
        simpa [bytesOK] using hy.2)
      have hxy : x = y := by
        rcases Nat.lt_trichotomy x y with h | h | h
        · exfalso
          have : x * 256 ^ ys.length + bytesToNat xs < y * 256 ^ ys.length := by
            calc x * 256 ^ ys.length + bytesToNat xs
                < x * 256 ^ ys.length + 256 ^ ys.length := by omega
              _ = (x + 1) * 256 ^ ys.length := by ring
              _ ≤ y * 256 ^ ys.length := Nat.mul_le_mul_right _ (by omega)
          omega
        · exact h
        · exfalso
          have : y * 256 ^ ys.length + bytesToNat ys < x * 256 ^ ys.length := by
            calc y * 256 ^ ys.length + bytesToNat ys
                < y * 256 ^ ys.length + 256 ^ ys.length := by omega
              _ = (y + 1) * 256 ^ ys.length := by ring
              _ ≤ x * 256 ^ ys.length := Nat.mul_le_mul_right _ (by omega)
          omega
      subst hxy
      have : bytesToNat xs = bytesToNat ys := by omega
      rw [ih ys hlen (by simpa [bytesOK] using hx.2) (by simpa [bytesOK] using hy.2) this]

theorem bytesToNat_inj (xs ys : List Nat) (hx : bytesOK xs = true) (hy : bytesOK ys = true)
    (nx : headNZ xs = true) (ny : headNZ ys = true)
    (h : bytesToNat xs = bytesToNat ys) : xs = ys := by
  have hlen : xs.length = ys.length := by
    cases xs with
    | nil => cases ys with
      | nil => rfl
      | cons y ys =>
        exfalso
        have hy0 : y ≠ 0 := by simpa [headNZ] using ny
        have hpos := bytesToNat_pos y ys hy0
        have h0 : bytesToNat ([] : List Nat) = 0 := rfl
        rw [h0] at h
        omega
    | cons x xs => cases ys with
      | nil =>
        exfalso
        have hx0 : x ≠ 0 := by simpa [headNZ] using nx
        have hpos := bytesToNat_pos x xs hx0
        have h0 : bytesToNat ([] : List Nat) = 0 := rfl
        rw [h0] at h
        omega
      | cons y ys =>
        have hx0 : x ≠ 0 := by simpa [headNZ] using nx
        have hy0 : y ≠ 0 := by simpa [headNZ] using ny
        by_contra hne
        rcases Nat.lt_trichotomy xs.length ys.length with hl | hl | hl
        · have h1 : bytesToNat (x :: xs) < 256 ^ (xs.length + 1) := bytesToNat_lt _ hx
          have h2 : 256 ^ ys.length ≤ bytesToNat (y :: ys) := bytesToNat_lower y ys hy0
          have h3 : (256 : Nat) ^ (xs.length + 1) ≤ 256 ^ ys.length :=
            Nat.pow_le_pow_right (by omega) (by omega)
          omega
        · exact hne (by simp [hl])
        · have h1 : bytesToNat (y :: ys) < 256 ^ (ys.length + 1) := bytesToNat_lt _ hy
          have h2 : 256 ^ xs.length ≤ bytesToNat (x :: xs) := bytesToNat_lower x xs hx0
          have h3 : (256 : Nat) ^ (ys.length + 1) ≤ 256 ^ xs.length :=
            Nat.pow_le_pow_right (by omega) (by omega)
          omega
  exact bytesToNat_inj_len xs ys hlen hx hy h

-- ============================================================================
-- LEMMAS: MINIMAL HEX REPRESENTATION AND THE BYTE ROUND TRIP
-- ============================================================================

theorem hexToNat_go (ds : List Nat) (acc : Nat) :
    ds.foldl (fun a d => 16 * a + d) acc = acc * 16 ^ ds.length + hexToNat ds := by
  induction ds generalizing acc with
  | nil => simp [hexToNat]
  | cons d ds ih =>
    simp only [List.foldl_cons, List.length_cons, hexToNat]
    rw [ih (16 * acc + d), ih (16 * 0 + d)]
    ring

theorem hexToNat_append (ds es : List Nat) :
    hexToNat (ds ++ es) = hexToNat ds * 16 ^ es.length + hexToNat es := by
  have h := hexToNat_go es (List.foldl (fun a d => 16 * a + d) 0 ds)
  show (ds ++ es).foldl (fun a d => 16 * a + d) 0 = _
  rw [List.foldl_append, h]
  simp [hexToNat]

theorem hexToNat_zero_cons (ds : List Nat) : hexToNat (0 :: ds) = hexToNat ds := rfl

theorem hexRep_ne_nil (n : Nat) : hexRep n ≠ [] := by
  rw [hexRep]
  split
  · simp
  · simp

theorem hexRep_digits (n : Nat) : ∀ d ∈ hexRep n, d < 16 := by
  induction n using Nat.strong_induction_on with
  | _ n ih =>
    rw [hexRep]
    split
    · intro d hd
      simp only [List.mem_singleton] at hd
      omega
    · intro d hd
      rw [List.mem_append] at hd
      rcases hd with hd | hd
      · exact ih (n / 16) (Nat.div_lt_self (by omega) (by omega)) d hd
      · simp only [List.mem_singleton] at hd
        omega

theorem hexToNat_hexRep (n : Nat) : hexToNat (hexRep n) = n := by
  induction n using Nat.strong_induction_on with
  | _ n ih =>
    rw [hexRep]
    split
    · show hexToNat [n] = n
      simp [hexToNat]
    · rw [hexToNat_append]
      rw [ih (n / 16) (Nat.div_lt_self (by omega) (by omega))]
      show n / 16 * 16 ^ 1 + hexToNat [n % 16] = n
      have : hexToNat [n % 16] = n % 16 := by simp [hexToNat]
      rw [this]
      omega

theorem headNZ_append (ds : List Nat) (es : List Nat) (h : ds ≠ []) :
    headNZ (ds ++ es) = headNZ ds := by
  cases ds with
  | nil => exact absurd rfl h
  | cons d ds => rfl

theorem hexRep_headNZ (n : Nat) (h : n ≠ 0) : headNZ (hexRep n) = true := by
  induction n using Nat.strong_induction_on with
  | _ n ih =>
    rw [hexRep]
    split
    · simp [headNZ]
      omega
    · rw [headNZ_append _ _ (hexRep_ne_nil _)]
      exact ih (n / 16) (Nat.div_lt_self (by omega) (by omega)) (by
        intro h0
        have : n < 16 := by omega
        omega)

theorem hexToBytes_go (ds : List Nat) (acc : Nat) (heven : ds.length % 2 = 0) :
    (hexToBytes ds).foldl (fun a b => 256 * a + b) acc =
      ds.foldl (fun a d => 16 * a + d) acc := by
  induction ds using hexToBytes.induct generalizing acc with
  | case1 d1 d2 rest ih =>
    show ((d1 * 16 + d2) :: hexToBytes rest).foldl (fun a b => 256 * a + b) acc = _
    simp only [List.foldl_cons]
    have harith : 256 * acc + (d1 * 16 + d2) = 16 * (16 * acc + d1) + d2 := by omega
    rw [harith]
    refine ih _ ?_
    simp only [List.length_cons] at heven
    omega
  | case2 ds h =>
    cases ds with
    | nil => rfl
    | cons d1 ds =>
      cases ds with
      | nil => simp at heven
      | cons d2 rest => exact (h d1 d2 rest rfl).elim

theorem bytesToNat_hexToBytes (ds : List Nat) (heven : ds.length % 2 = 0) :
    bytesToNat (hexToBytes ds) = hexToNat ds :=
  hexToBytes_go ds 0 heven

theorem hexToBytes_bytesOK (ds : List Nat) (h : ∀ d ∈ ds, d < 16) :
    bytesOK (hexToBytes ds) = true := by
  induction ds using hexToBytes.induct with
  | case1 d1 d2 rest ih =>
    show bytesOK ((d1 * 16 + d2) :: hexToBytes rest) = true
    have h1 : d1 < 16 := h d1 (by simp)
    have h2 : d2 < 16 := h d2 (by simp)
    simp only [bytesOK, List.all_cons, Bool.and_eq_true, decide_eq_true_eq]
    exact ⟨by omega, ih (fun d hd => h d (by simp [hd]))⟩
  | case2 ds h2 =>
    cases ds with
    | nil => rfl
    | cons d1 ds =>
      cases ds with
      | nil => rfl
      | cons d2 rest => exact (h2 d1 d2 rest rfl).elim

theorem bigIntToBytes_val (n : Nat) : bytesToNat (bigIntToBytes n) = n := by
  show bytesToNat (hexToBytes (if (hexRep n).length % 2 = 1 then 0 :: hexRep n else hexRep n)) = n
  split
  · rw [bytesToNat_hexToBytes _ (by simp; omega)]
    rw [hexToNat_zero_cons, hexToNat_hexRep]
  · rw [bytesToNat_hexToBytes _ (by omega)]
    exact hexToNat_hexRep n

theorem bigIntToBytes_bytesOK (n : Nat) : bytesOK (bigIntToBytes n) = true := by
  show bytesOK (hexToBytes (if (hexRep n).length % 2 = 1 then 0 :: hexRep n else hexRep n)) = true
  split
  · exact hexToBytes_bytesOK _ (by
      intro d hd
      rcases List.mem_cons.mp hd with h | h
      · omega
      · exact hexRep_digits n d h)
  · exact hexToBytes_bytesOK _ (hexRep_digits n)

theorem bigIntToBytes_headNZ (n : Nat) (h : n ≠ 0) : headNZ (bigIntToBytes n) = true := by
  have hh := hexRep_headNZ n h
  have hne := hexRep_ne_nil n
  show headNZ (hexToBytes (if (hexRep n).length % 2 = 1 then 0 :: hexRep n else hexRep n)) = true
  rcases hq : hexRep n with _ | ⟨h0, rest⟩
  · exact absurd hq hne
  · rw [hq] at hh
    have h0nz : h0 ≠ 0 := by simpa [headNZ] using hh
    split
    · show headNZ ((0 * 16 + h0) :: hexToBytes rest) = true
      simp [headNZ]
      omega
    · rename_i hlen
      cases rest with
      | nil => simp at hlen
      | cons h1 rest2 =>
        show headNZ ((h0 * 16 + h1) :: hexToBytes rest2) = true
        simp [headNZ]
        omega

theorem bigIntToBytes_bytesToNat (bs : List Nat) (hne : bs ≠ [])
    (hok : bytesOK bs = true) (hnz : headNZ bs = true) :
    bigIntToBytes (bytesToNat bs) = bs := by
  have h0 : bytesToNat bs ≠ 0 := by
    cases bs with
    | nil => exact absurd rfl hne
    | cons b bs2 =>
      have hb : b ≠ 0 := by simpa [headNZ] using hnz
      have := bytesToNat_pos b bs2 hb
      omega
  exact bytesToNat_inj _ _ (bigIntToBytes_bytesOK _) hok
    (bigIntToBytes_headNZ _ h0) hnz (bigIntToBytes_val (bytesToNat bs))

-- ============================================================================
-- LEMMAS: BASE64 ROUND TRIP
-- ============================================================================

theorem sextet_char_roundtrip : ∀ s, s < 64 → b64SextetOfChar (b64CharOfSextet s) = some s := by
  decide

theorem b64_roundtrip (bs : List Nat) (h : bytesOK bs = true) :
    b64decode (b64encode bs) = bs := by
  induction bs using b64encode.induct with
  | case1 b0 b1 b2 rest ih =>
    simp only [bytesOK, List.all_cons, Bool.and_eq_true, decide_eq_true_eq] at h
    obtain ⟨hb0, hb1, hb2, hrest⟩ := h
    have e0 : b64SextetOfChar (b64CharOfSextet (b0 / 4)) = some (b0 / 4) :=
      sextet_char_roundtrip _ (by omega)
    have e1 : b64SextetOfChar (b64CharOfSextet ((b0 % 4) * 16 + b1 / 16)) =
        some ((b0 % 4) * 16 + b1 / 16) := sextet_char_roundtrip _ (by omega)
    have e2 : b64SextetOfChar (b64CharOfSextet ((b1 % 16) * 4 + b2 / 64)) =
        some ((b1 % 16) * 4 + b2 / 64) := sextet_char_roundtrip _ (by omega)
    have e3 : b64SextetOfChar (b64CharOfSextet (b2 % 64)) = some (b2 % 64) :=
      sextet_char_roundtrip _ (by omega)
    show b64decode (b64CharOfSextet (b0 / 4) :: b64CharOfSextet ((b0 % 4) * 16 + b1 / 16) ::
      b64CharOfSextet ((b1 % 16) * 4 + b2 / 64) :: b64CharOfSextet (b2 % 64) ::
      b64encode rest) = b0 :: b1 :: b2 :: rest
    unfold b64decode
    simp only [List.filterMap_cons, e0, e1, e2, e3]
    simp only [decodeSextets]
    have ih2 := ih hrest
    unfold b64decode at ih2
    rw [ih2]
    have c0 : b0 / 4 * 4 + ((b0 % 4) * 16 + b1 / 16) / 16 = b0 := by omega
    have c1 : ((b0 % 4) * 16 + b1 / 16) % 16 * 16 + ((b1 % 16) * 4 + b2 / 64) / 4 = b1 := by
      omega
    have c2 : ((b1 % 16) * 4 + b2 / 64) % 4 * 64 + b2 % 64 = b2 := by omega
    rw [c0, c1, c2]
  | case2 b0 b1 =>
    simp only [bytesOK, List.all_cons, Bool.and_eq_true, decide_eq_true_eq, List.all_nil,
      and_true] at h
    obtain ⟨hb0, hb1⟩ := h
    have e0 : b64SextetOfChar (b64CharOfSextet (b0 / 4)) = some (b0 / 4) :=
      sextet_char_roundtrip _ (by omega)
    have e1 : b64SextetOfChar (b64CharOfSextet ((b0 % 4) * 16 + b1 / 16)) =
        some ((b0 % 4) * 16 + b1 / 16) := sextet_char_roundtrip _ (by omega)
    have e2 : b64SextetOfChar (b64CharOfSextet ((b1 % 16) * 4)) = some ((b1 % 16) * 4) :=
      sextet_char_roundtrip _ (by omega)
    show b64decode [b64CharOfSextet (b0 / 4), b64CharOfSextet ((b0 % 4) * 16 + b1 / 16),
      b64CharOfSextet ((b1 % 16) * 4), 61] = [b0, b1]
    unfold b64decode
    simp only [List.filterMap_cons, e0, e1, e2, List.filterMap_nil]
    have e61 : b64SextetOfChar 61 = none := rfl
    simp only [e61]
    simp only [decodeSextets]
    have c0 : b0 / 4 * 4 + ((b0 % 4) * 16 + b1 / 16) / 16 = b0 := by omega
    have c1 : ((b0 % 4) * 16 + b1 / 16) % 16 * 16 + (b1 % 16) * 4 / 4 = b1 := by omega
    rw [c0, c1]
  | case3 b0 =>
    simp only [bytesOK, List.all_cons, Bool.and_eq_true, decide_eq_true_eq, List.all_nil,
      and_true] at h
    have e0 : b64SextetOfChar (b64CharOfSextet (b0 / 4)) = some (b0 / 4) :=
      sextet_char_roundtrip _ (by omega)
    have e1 : b64SextetOfChar (b64CharOfSextet ((b0 % 4) * 16)) = some ((b0 % 4) * 16) :=
      sextet_char_roundtrip _ (by omega)
    show b64decode [b64CharOfSextet (b0 / 4), b64CharOfSextet ((b0 % 4) * 16), 61, 61] = [b0]
    unfold b64decode
    have e61 : b64SextetOfChar 61 = none := rfl
    simp only [List.filterMap_cons, e0, e1, e61, List.filterMap_nil]
    simp only [decodeSextets]
    have c0 : b0 / 4 * 4 + (b0 % 4) * 16 / 16 = b0 := by omega
    rw [c0]
  | case4 => rfl

theorem base64ToBigInt_bigIntToBase64 (k : Nat) : base64ToBigInt (bigIntToBase64 k) = k := by
  unfold base64ToBigInt bigIntToBase64
  rw [b64_roundtrip _ (bigIntToBytes_bytesOK k), bufToBigInt_eq, bigIntToBytes_val]

-- ============================================================================
-- LEMMAS: DECIMAL REPRESENTATION
-- ============================================================================

theorem decFold_go (ds : List Nat) (acc : Nat) :
    ds.foldl (fun a c => 10 * a + (c - 48)) acc =
      acc * 10 ^ ds.length + ds.foldl (fun a c => 10 * a + (c - 48)) 0 := by
  induction ds generalizing acc with
  | nil => simp
  | cons d ds ih =>
    simp only [List.foldl_cons, List.length_cons]
    rw [ih (10 * acc + (d - 48)), ih (10 * 0 + (d - 48))]
    ring

theorem decRep_digits (n : Nat) : ∀ d ∈ decRep n, isDigit d = true := by
  induction n using Nat.strong_induction_on with
  | _ n ih =>
    rw [decRep]
    split
    · intro d hd
      simp only [List.mem_singleton] at hd
      subst hd
      simp only [isDigit, Bool.and_eq_true, decide_eq_true_eq]
      omega
    · intro d hd
      rw [List.mem_append] at hd
      rcases hd with hd | hd
      · exact ih (n / 10) (Nat.div_lt_self (by omega) (by omega)) d hd
      · simp only [List.mem_singleton] at hd
        subst hd
        simp only [isDigit, Bool.and_eq_true, decide_eq_true_eq]
        omega

theorem decRep_ne_nil (n : Nat) : decRep n ≠ [] := by
  rw [decRep]
  split
  · simp
  · simp

theorem decRep_val (n : Nat) :
    (decRep n).foldl (fun a c => 10 * a + (c - 48)) 0 = n := by
  induction n using Nat.strong_induction_on with
  | _ n ih =>
    rw [decRep]
    split
    · simp only [List.foldl_cons, List.foldl_nil]
      omega
    · rw [List.foldl_append]
      rw [ih (n / 10) (Nat.div_lt_self (by omega) (by omega))]
      simp only [List.foldl_cons, List.foldl_nil]
      omega

theorem parseDecGo_eq (ds : List Nat) (acc : Nat) (h : ∀ d ∈ ds, isDigit d = true) :
    parseDecGo ds acc = some (ds.foldl (fun a c => 10 * a + (c - 48)) acc) := by
  induction ds generalizing acc with
  | nil => rfl
  | cons d ds ih =>
    have hd : isDigit d = true := h d (by simp)
    show (if isDigit d then parseDecGo ds (10 * acc + (d - 48)) else none) = _
    rw [if_pos hd]
    rw [ih _ (fun x hx => h x (by simp [hx]))]
    rfl

theorem parseDec_decRep (n : Nat) : parseDec (decRep n) = some n := by
  rcases hq : decRep n with _ | ⟨c, r⟩
  · exact absurd hq (decRep_ne_nil n)
  · show parseDecGo (c :: r) 0 = some n
    rw [parseDecGo_eq _ _ (by rw [← hq]; exact decRep_digits n)]
    rw [← hq, decRep_val]

-- ============================================================================
-- LEMMAS: STRINGIFY STRUCTURE
-- ============================================================================

theorem skipWS_not_ws (c : Nat) (r : List Nat) (h : isWS c = false) :
    skipWS (c :: r) = c :: r := by
  show (if isWS c then skipWS r else c :: r) = c :: r
  rw [h]
  rfl

theorem goodHead_not_ws (c : Nat) (h : goodHead c) : isWS c = false := by
  simp only [isWS, Bool.or_eq_false_iff, beq_eq_false_iff_ne]
  rcases h with h | h | h | h | h | h | h | h <;> omega

theorem goodHead_ne (c : Nat) (h : goodHead c) : c ≠ 93 ∧ c ≠ 125 ∧ c ≠ 44 ∧ c ≠ 0 ∧ c ≠ 58 := by
  rcases h with h | h | h | h | h | h | h | h <;> omega

theorem stringify_head (v : JVal) (h : WFv v = true) :
    ∃ c r, stringifyV v = c :: r ∧ goodHead c := by
  cases v with
  | jnull => exact ⟨110, _, rfl, Or.inl rfl⟩
  | jbool b =>
    cases b with
    | true => exact ⟨116, _, rfl, Or.inr (Or.inl rfl)⟩
    | false => exact ⟨102, _, rfl, Or.inr (Or.inr (Or.inl rfl))⟩
  | jnum t =>
    cases t with
    | nil => simp [WFv, intTokOK] at h
    | cons c r =>
      refine ⟨c, r, rfl, ?_⟩
      simp only [WFv, intTokOK] at h
      by_cases h48 : c = 48
      · subst h48
        right; right; right; right; right; right; right
        omega
      · rw [if_neg h48] at h
        by_cases h45 : c = 45
        · subst h45
          right; right; right; right; right; right; left; rfl
        · rw [if_neg h45] at h
          simp only [posTok, Bool.and_eq_true, decide_eq_true_eq] at h
          right; right; right; right; right; right; right
          omega
  | jstr s => exact ⟨34, _, rfl, Or.inr (Or.inr (Or.inr (Or.inl rfl)))⟩
  | jarr xs => exact ⟨91, _, rfl, by simp [goodHead]⟩
  | jobj fs => exact ⟨123, _, rfl, by simp [goodHead]⟩

theorem bytesOK_append (xs ys : List Nat) :
    bytesOK (xs ++ ys) = (bytesOK xs && bytesOK ys) := by
  simp [bytesOK, List.all_append]

theorem digits_bytesOK (ds : List Nat) (h : ∀ d ∈ ds, isDigit d = true) :
    bytesOK ds = true := by
  simp only [bytesOK, List.all_eq_true, decide_eq_true_eq]
  intro d hd
  have := h d hd
  simp only [isDigit, Bool.and_eq_true, decide_eq_true_eq] at this
  omega

theorem intTok_bytesOK (t : List Nat) (h : intTokOK t = true) : bytesOK t = true := by
  cases t with
  | nil => rfl
  | cons c r =>
    simp only [intTokOK] at h
    by_cases h48 : c = 48
    · subst h48
      rw [if_pos rfl] at h
      cases r with
      | nil => rfl
      | cons x xs => simp at h
    · rw [if_neg h48] at h
      by_cases h45 : c = 45
      · subst h45
        rw [if_pos rfl] at h
        cases r with
        | nil => simp [posTok] at h
        | cons x xs =>
          simp only [posTok, Bool.and_eq_true, decide_eq_true_eq] at h
          simp only [bytesOK, List.all_cons, Bool.and_eq_true, decide_eq_true_eq]
          refine ⟨by omega, by omega, ?_⟩
          have := digits_bytesOK xs (by
            intro d hd
            have := h.2
            simp only [List.all_eq_true] at this
            exact this d hd)
          simpa [bytesOK] using this
      · rw [if_neg h45] at h
        simp only [posTok, Bool.and_eq_true, decide_eq_true_eq] at h
        simp only [bytesOK, List.all_cons, Bool.and_eq_true, decide_eq_true_eq]
        refine ⟨by omega, ?_⟩
        have := digits_bytesOK r (by
          intro d hd
          have := h.2
          simp only [List.all_eq_true] at this
          exact this d hd)
        simpa [bytesOK] using this

theorem hexDigitChar_lt (d : Nat) (hd : d < 16) : hexDigitChar d < 256 := by
  unfold hexDigitChar
  split_ifs <;> omega

theorem escapeByte_bytesOK (b : Nat) (h : b < 256) : bytesOK (escapeByte b) = true := by
  have h1 := hexDigitChar_lt (b / 16) (by omega)
  have h2 := hexDigitChar_lt (b % 16) (by omega)
  unfold escapeByte
  split_ifs <;>
    simp only [bytesOK, List.all_cons, List.all_nil, Bool.and_eq_true, and_true,
      decide_eq_true_eq] <;>
    omega

theorem escStr_bytesOK (s : List Nat) (h : bytesOK s = true) :
    bytesOK (escStr s) = true := by
  induction s with
  | nil => rfl
  | cons b s ih =>
    simp only [bytesOK, List.all_cons, Bool.and_eq_true, decide_eq_true_eq] at h
    show bytesOK (escapeByte b ++ escStr s) = true
    rw [bytesOK_append, escapeByte_bytesOK b h.1, ih h.2]
    rfl

theorem quoteStr_bytesOK (s : List Nat) (h : bytesOK s = true) :
    bytesOK (quoteStr s) = true := by
  show bytesOK (34 :: (escStr s ++ [34])) = true
  simp only [bytesOK, List.all_cons, Bool.and_eq_true, decide_eq_true_eq]
  refine ⟨by omega, ?_⟩
  have h2 := escStr_bytesOK s h
  have : bytesOK (escStr s ++ [34]) = true := by
    rw [bytesOK_append, h2]
    rfl
  simpa [bytesOK] using this

mutual

theorem stringify_bytesOK (v : JVal) (h : WFv v = true) : bytesOK (stringifyV v) = true := by
  cases v with
  | jnull => rfl
  | jbool b => cases b <;> rfl
  | jnum t => exact intTok_bytesOK t (by simpa [WFv] using h)
  | jstr s => exact quoteStr_bytesOK s (by simpa [WFv] using h)
  | jarr xs =>
    show bytesOK (91 :: (stringifyArr xs ++ [93])) = true
    simp only [bytesOK, List.all_cons, Bool.and_eq_true, decide_eq_true_eq]
    refine ⟨by omega, ?_⟩
    have h2 := stringifyArr_bytesOK xs (by simpa [WFv] using h)
    have : bytesOK (stringifyArr xs ++ [93]) = true := by
      rw [bytesOK_append, h2]
      rfl
    simpa [bytesOK] using this
  | jobj fs =>
    show bytesOK (123 :: (stringifyObj fs ++ [125])) = true
    simp only [bytesOK, List.all_cons, Bool.and_eq_true, decide_eq_true_eq]
    refine ⟨by omega, ?_⟩
    have h2 := stringifyObj_bytesOK fs (by simpa [WFv] using h)
    have : bytesOK (stringifyObj fs ++ [125]) = true := by
      rw [bytesOK_append, h2]
      rfl
    simpa [bytesOK] using this

theorem stringifyArr_bytesOK (xs : List JVal) (h : WFarr xs = true) :
    bytesOK (stringifyArr xs) = true := by
  cases xs with
  | nil => rfl
  | cons x xs =>
    cases xs with
    | nil =>
      show bytesOK (stringifyV x) = true
      exact stringify_bytesOK x (by
        simp only [WFarr, Bool.and_eq_true] at h
        exact h.1)
    | cons x2 xs2 =>
      show bytesOK (stringifyV x ++ 44 :: stringifyArr (x2 :: xs2)) = true
      simp only [WFarr, Bool.and_eq_true] at h
      rw [bytesOK_append, stringify_bytesOK x h.1]
      have h2 := stringifyArr_bytesOK (x2 :: xs2) (by
        simp only [WFarr, Bool.and_eq_true]
        exact h.2)
      simp only [bytesOK, List.all_cons, Bool.and_eq_true, decide_eq_true_eq] at h2 ⊢
      exact ⟨trivial, by omega, h2⟩

theorem stringifyObj_bytesOK (fs : List (List Nat × JVal)) (h : WFobj fs = true) :
    bytesOK (stringifyObj fs) = true := by
  cases fs with
  | nil => rfl
  | cons kv fs =>
    obtain ⟨k, v⟩ := kv
    cases fs with
    | nil =>
      show bytesOK (quoteStr k ++ 58 :: stringifyV v) = true
      simp only [WFobj, Bool.and_eq_true] at h
      rw [bytesOK_append, quoteStr_bytesOK k h.1.1.1]
      have h2 := stringify_bytesOK v h.1.1.2
      simp only [bytesOK, List.all_cons, Bool.and_eq_true, decide_eq_true_eq] at h2 ⊢
      exact ⟨trivial, by omega, h2⟩
    | cons kv2 fs2 =>
      show bytesOK (quoteStr k ++ 58 :: stringifyV v ++ 44 :: stringifyObj (kv2 :: fs2)) = true
      simp only [WFobj, Bool.and_eq_true] at h
      have h1 := quoteStr_bytesOK k h.1.1.1
      have h2 := stringify_bytesOK v h.1.1.2
      have h3 := stringifyObj_bytesOK (kv2 :: fs2) (by
        simp only [WFobj, Bool.and_eq_true]
        exact h.2)
      simp only [bytesOK, List.all_append, List.all_cons, Bool.and_eq_true,
        decide_eq_true_eq] at h1 h2 h3 ⊢
      refine ⟨?_, ?_⟩
      · exact ⟨h1, by omega, h2⟩
      · exact ⟨by omega, h3⟩

end

-- ============================================================================
-- LEMMAS: PARSER ON SERIALISED OUTPUT
-- ============================================================================

theorem hexDigitVal_hexDigitChar : ∀ d, d < 16 → hexDigitVal (hexDigitChar d) = some d := by
  decide

theorem parseStrBody_escapeByte (b : Nat) (hb : b < 256) (tail : List Nat)
    (k : List Nat × List Nat) (h : parseStrBody tail = some k) :
    parseStrBody (escapeByte b ++ tail) = some (b :: k.1, k.2) := by
  by_cases h34 : b = 34
  · subst h34
    simp [escapeByte, parseStrBody, parseEsc, simpleEscape, Option.elim, h]
  · by_cases h92 : b = 92
    · subst h92
      simp [escapeByte, parseStrBody, parseEsc, simpleEscape, Option.elim, h]
    · by_cases h8 : b = 8
      · subst h8
        simp [escapeByte, parseStrBody, parseEsc, simpleEscape, Option.elim, h]
      · by_cases h9 : b = 9
        · subst h9
          simp [escapeByte, parseStrBody, parseEsc, simpleEscape, Option.elim, h]
        · by_cases h10 : b = 10
          · subst h10
            simp [escapeByte, parseStrBody, parseEsc, simpleEscape, Option.elim, h]
          · by_cases h12 : b = 12
            · subst h12
              simp [escapeByte, parseStrBody, parseEsc, simpleEscape, Option.elim, h]
            · by_cases h13 : b = 13
              · subst h13
                simp [escapeByte, parseStrBody, parseEsc, simpleEscape, Option.elim, h]
              · by_cases h32 : b < 32
                · have hesc : escapeByte b =
                      [92, 117, 48, 48, hexDigitChar (b / 16), hexDigitChar (b % 16)] := by
                    unfold escapeByte
                    rw [if_neg h34, if_neg h92, if_neg h8, if_neg h9, if_neg h10,
                      if_neg h12, if_neg h13, if_pos h32]
                  rw [hesc]
                  have hv3 := hexDigitVal_hexDigitChar (b / 16) (by omega)
                  have hv4 := hexDigitVal_hexDigitChar (b % 16) (by omega)
                  have e48 : hexDigitVal 48 = some 0 := rfl
                  simp only [List.cons_append, List.nil_append]
                  rw [show parseStrBody (92 :: 117 :: 48 :: 48 :: hexDigitChar (b / 16) ::
                      hexDigitChar (b % 16) :: tail) =
                    parseU (48 :: 48 :: hexDigitChar (b / 16) :: hexDigitChar (b % 16) :: tail)
                    from rfl]
                  rw [show parseU (48 :: 48 :: hexDigitChar (b / 16) ::
                      hexDigitChar (b % 16) :: tail) =
                    ((hexDigitVal 48).bind (fun a =>
                      (hexDigitVal 48).bind (fun b2 =>
                        (hexDigitVal (hexDigitChar (b / 16))).bind (fun cc =>
                          (hexDigitVal (hexDigitChar (b % 16))).bind (fun d =>
                            if ((a * 16 + b2) * 16 + cc) * 16 + d < 128 then
                              (parseStrBody tail).map
                                (fun p => ((((a * 16 + b2) * 16 + cc) * 16 + d) :: p.1, p.2))
                            else none))))) from rfl]
                  rw [e48, hv3, hv4]
                  simp only [Option.some_bind]
                  rw [show ((0 * 16 + 0) * 16 + b / 16) * 16 + b % 16 = b by omega]
                  rw [if_pos (by omega : b < 128)]
                  simp [h]
                · have hesc : escapeByte b = [b] := by
                    unfold escapeByte
                    rw [if_neg h34, if_neg h92, if_neg h8, if_neg h9, if_neg h10,
                      if_neg h12, if_neg h13, if_neg h32]
                  rw [hesc]
                  show parseStrBody (b :: tail) = _
                  rw [show parseStrBody (b :: tail) =
                    (if b = 34 then some ([], tail)
                     else if b = 92 then parseEsc tail
                     else if b < 32 then none
                     else (parseStrBody tail).map (fun p => (b :: p.1, p.2))) from rfl]
                  rw [if_neg h34, if_neg h92, if_neg (by omega : ¬ b < 32)]
                  rw [h]
                  rfl

theorem parseStrBody_escape (s : List Nat) (hok : bytesOK s = true) (rest : List Nat) :
    parseStrBody (escStr s ++ 34 :: rest) = some (s, rest) := by
  induction s with
  | nil =>
    show parseStrBody (34 :: rest) = some ([], rest)
    simp [parseStrBody]
  | cons b s ih =>
    simp only [bytesOK, List.all_cons, Bool.and_eq_true, decide_eq_true_eq] at hok
    show parseStrBody ((escapeByte b ++ escStr s) ++ 34 :: rest) = _
    rw [List.append_assoc]
    exact parseStrBody_escapeByte b hok.1 _ (s, rest) (ih hok.2)

theorem spanDigits_append (ds rest : List Nat) (hds : ∀ d ∈ ds, isDigit d = true)
    (hrest : ∀ c r2, rest = c :: r2 → isDigit c = false) :
    spanDigits (ds ++ rest) = (ds, rest) := by
  induction ds with
  | nil =>
    cases rest with
    | nil => rfl
    | cons c r2 =>
      show spanDigits (c :: r2) = ([], c :: r2)
      rw [show spanDigits (c :: r2) =
        (if isDigit c then ((c :: (spanDigits r2).1, (spanDigits r2).2) : List Nat × List Nat)
         else ([], c :: r2)) from rfl]
      rw [if_neg (by rw [hrest c r2 rfl]; exact Bool.false_ne_true)]
  | cons d ds ih =>
    show spanDigits (d :: (ds ++ rest)) = (d :: ds, rest)
    rw [show spanDigits (d :: (ds ++ rest)) =
      (if isDigit d then
        ((d :: (spanDigits (ds ++ rest)).1, (spanDigits (ds ++ rest)).2) : List Nat × List Nat)
       else ([], d :: (ds ++ rest))) from rfl]
    rw [if_pos (hds d (by simp))]
    rw [ih (fun x hx => hds x (by simp [hx]))]

theorem parseFrac_sep (rest : List Nat)
    (hrest : ∀ c r2, rest = c :: r2 → c ≠ 46) :
    parseFrac rest = some ([], rest) := by
  cases rest with
  | nil => rfl
  | cons c r2 =>
    show parseFrac (c :: r2) = _
    rw [parseFrac]
    rw [if_neg (hrest c r2 rfl)]

theorem parseExp_sep (rest : List Nat)
    (hrest : ∀ c r2, rest = c :: r2 → c ≠ 101 ∧ c ≠ 69) :
    parseExp rest = some ([], rest) := by
  cases rest with
  | nil => rfl
  | cons c r2 =>
    show parseExp (c :: r2) = _
    rw [parseExp]
    rw [if_neg (by
      simp only [Bool.or_eq_true, decide_eq_true_eq]
      push_neg
      exact hrest c r2 rfl)]

theorem parseNum_intTok (t rest : List Nat) (h : intTokOK t = true)
    (hrest : rest = [] ∨ ∃ c r2, rest = c :: r2 ∧ (c = 44 ∨ c = 93 ∨ c = 125)) :
    parseNum (t ++ rest) = some (.jnum t, rest) := by
  have hsep : ∀ c r2, rest = c :: r2 →
      isDigit c = false ∧ c ≠ 46 ∧ c ≠ 101 ∧ c ≠ 69 := by
    intro c r2 heq
    rcases hrest with h0 | ⟨c0, r0, heq0, hc0⟩
    · rw [h0] at heq
      cases heq
    · rw [heq0] at heq
      injection heq with h1 h2
      subst h1
      rcases hc0 with h3 | h3 | h3 <;> subst h3 <;>
        exact ⟨rfl, by omega, by omega, by omega⟩
  have hfrac := parseFrac_sep rest (fun c r2 hc => (hsep c r2 hc).2.1)
  have hexp := parseExp_sep rest (fun c r2 hc => ⟨(hsep c r2 hc).2.2.1, (hsep c r2 hc).2.2.2⟩)
  cases t with
  | nil => simp [intTokOK] at h
  | cons c cs =>
    simp only [intTokOK] at h
    by_cases h48 : c = 48
    · subst h48
      rw [if_pos rfl] at h
      have hcs : cs = [] := by
        cases cs with
        | nil => rfl
        | cons x xs => simp at h
      subst hcs
      show parseNum (48 :: rest) = _
      unfold parseNum
      have hsign : numSign (48 :: rest) = [] := by
        show (if (48 : Nat) = 45 then [45] else []) = ([] : List Nat)
        rw [if_neg (by omega)]
      have htail : numTail (48 :: rest) = 48 :: rest := by
        show (if (48 : Nat) = 45 then rest else 48 :: rest) = 48 :: rest
        rw [if_neg (by omega)]
      rw [hsign, htail]
      have hip : parseIntPart (48 :: rest) = some ([48], rest) := by
        cases rest with
        | nil => rfl
        | cons c2 r2 =>
          show parseIntPart (48 :: c2 :: r2) = _
          rw [parseIntPart, if_pos rfl, parseZero,
            if_neg (by rw [(hsep c2 r2 rfl).1]; exact Bool.false_ne_true)]
      rw [hip]
      simp only [Option.some_bind]
      rw [hfrac]
      simp only [Option.some_bind]
      rw [hexp]
      rfl
    · rw [if_neg h48] at h
      by_cases h45 : c = 45
      · subst h45
        rw [if_pos rfl] at h
        cases cs with
        | nil => simp [posTok] at h
        | cons c2 cs2 =>
          simp only [posTok, Bool.and_eq_true, decide_eq_true_eq, List.all_eq_true] at h
          show parseNum (45 :: (c2 :: cs2) ++ rest) = _
          unfold parseNum
          have hsign : numSign (45 :: (c2 :: cs2) ++ rest) = [45] := by
            show (if (45 : Nat) = 45 then [45] else []) = [45]
            rw [if_pos rfl]
          have htail : numTail (45 :: (c2 :: cs2) ++ rest) = (c2 :: cs2) ++ rest := by
            show (if (45 : Nat) = 45 then (c2 :: cs2) ++ rest
              else 45 :: ((c2 :: cs2) ++ rest)) = (c2 :: cs2) ++ rest
            rw [if_pos rfl]
          rw [hsign, htail]
          have hip : parseIntPart ((c2 :: cs2) ++ rest) = some (c2 :: cs2, rest) := by
            show parseIntPart (c2 :: (cs2 ++ rest)) = _
            rw [parseIntPart]
            rw [if_neg (by omega)]
            rw [if_pos (by simp only [isDigit, Bool.and_eq_true, decide_eq_true_eq]; omega)]
            rw [spanDigits_append cs2 rest (fun d hd => by
                have := h.2 d hd
                simpa [isDigit] using this)
              (fun c3 r3 hc => (hsep c3 r3 hc).1)]
          rw [hip]
          simp only [Option.some_bind]
          rw [hfrac]
          simp only [Option.some_bind]
          rw [hexp]
          simp
      · rw [if_neg h45] at h
        simp only [posTok, Bool.and_eq_true, decide_eq_true_eq, List.all_eq_true] at h
        show parseNum ((c :: cs) ++ rest) = _
        unfold parseNum
        have hsign : numSign ((c :: cs) ++ rest) = [] := by
          show (if c = 45 then [45] else []) = ([] : List Nat)
          rw [if_neg h45]
        have htail : numTail ((c :: cs) ++ rest) = (c :: cs) ++ rest := by
          show (if c = 45 then cs ++ rest else c :: (cs ++ rest)) = _
          rw [if_neg h45]
          rfl
        rw [hsign, htail]
        have hip : parseIntPart ((c :: cs) ++ rest) = some (c :: cs, rest) := by
          show parseIntPart (c :: (cs ++ rest)) = _
          rw [parseIntPart]
          rw [if_neg h48]
          rw [if_pos (by simp only [isDigit, Bool.and_eq_true, decide_eq_true_eq]; omega)]
          rw [spanDigits_append cs rest (fun d hd => by
              have := h.2 d hd
              simpa [isDigit] using this)
            (fun c3 r3 hc => (hsep c3 r3 hc).1)]
        rw [hip]
        simp only [Option.some_bind]
        rw [hfrac]
        simp only [Option.some_bind]
        rw [hexp]
        simp

theorem stringify_len_pos (v : JVal) (h : WFv v = true) : 1 ≤ (stringifyV v).length := by
  obtain ⟨c, r, heq, _⟩ := stringify_head v h
  rw [heq]
  simp

theorem intTok_head (c : Nat) (cs : List Nat) (h : intTokOK (c :: cs) = true) :
    c = 48 ∨ c = 45 ∨ (49 ≤ c ∧ c ≤ 57) := by
  simp only [intTokOK] at h
  by_cases h48 : c = 48
  · exact Or.inl h48
  · rw [if_neg h48] at h
    by_cases h45 : c = 45
    · exact Or.inr (Or.inl h45)
    · rw [if_neg h45] at h
      simp only [posTok, Bool.and_eq_true, decide_eq_true_eq] at h
      exact Or.inr (Or.inr ⟨h.1.1, h.1.2⟩)

theorem stringifyArr_head (x : JVal) (xs : List JVal) (h : WFv x = true) :
    ∃ c r, stringifyArr (x :: xs) = c :: r ∧ goodHead c := by
  obtain ⟨c, r, heq, hg⟩ := stringify_head x h
  cases xs with
  | nil => exact ⟨c, r, by simp [stringifyArr, heq], hg⟩
  | cons x2 xs2 =>
    refine ⟨c, r ++ 44 :: stringifyArr (x2 :: xs2), ?_, hg⟩
    show stringifyV x ++ 44 :: stringifyArr (x2 :: xs2) = _
    rw [heq]
    rfl

theorem stringifyObj_head (k : List Nat) (v : JVal) (fs : List (List Nat × JVal)) :
    ∃ r, stringifyObj ((k, v) :: fs) = 34 :: r := by
  cases fs with
  | nil =>
    show ∃ r, quoteStr k ++ 58 :: stringifyV v = 34 :: r
    exact ⟨escStr k ++ [34] ++ 58 :: stringifyV v, by simp [quoteStr, List.append_assoc]⟩
  | cons f2 fs2 =>
    show ∃ r, quoteStr k ++ 58 :: stringifyV v ++ 44 :: stringifyObj (f2 :: fs2) = 34 :: r
    exact ⟨escStr k ++ [34] ++ (58 :: stringifyV v ++ 44 :: stringifyObj (f2 :: fs2)), by
      simp [quoteStr, List.append_assoc]⟩

mutual

theorem parseVal_stringify (v : JVal) (h : WFv v = true) (rest : List Nat)
    (hrest : rest = [] ∨ ∃ c r2, rest = c :: r2 ∧ (c = 44 ∨ c = 93 ∨ c = 125))
    (fuel : Nat) (hfuel : (stringifyV v).length < fuel) :
    parseVal fuel (stringifyV v ++ rest) = some (v, rest) := by
  cases fuel with
  | zero => omega
  | succ f =>
    rw [parseVal]
    cases v with
    | jnull =>
      show parseValCore f (skipWS ([110, 117, 108, 108] ++ rest)) = _
      simp [skipWS, isWS, parseValCore, dropWord]
    | jbool b =>
      cases b with
      | true =>
        show parseValCore f (skipWS ([116, 114, 117, 101] ++ rest)) = _
        simp [skipWS, isWS, parseValCore, dropWord]
      | false =>
        show parseValCore f (skipWS ([102, 97, 108, 115, 101] ++ rest)) = _
        simp [skipWS, isWS, parseValCore, dropWord]
    | jnum t =>
      have hok : intTokOK t = true := by simpa [WFv] using h
      cases t with
      | nil => simp [intTokOK] at hok
      | cons c cs =>
        have hc := intTok_head c cs hok
        have hbnd : 45 ≤ c ∧ c ≤ 57 ∧ c ≠ 46 ∧ c ≠ 47 := by
          rcases hc with h1 | h1 | h1 <;> omega
        have hns : isWS c = false := by
          simp only [isWS, Bool.or_eq_false_iff, beq_eq_false_iff_ne]
          omega
        show parseValCore f (skipWS ((c :: cs) ++ rest)) = _
        rw [show (c :: cs) ++ rest = c :: (cs ++ rest) from rfl]
        rw [skipWS_not_ws c _ hns]
        rw [parseValCore]
        rw [if_neg (by omega), if_neg (by omega), if_neg (by omega), if_neg (by omega),
          if_neg (by omega), if_neg (by omega)]
        rw [if_pos (by
          rcases hc with h1 | h1 | h1 <;>
            simp only [isDigit, Bool.or_eq_true, Bool.and_eq_true, decide_eq_true_eq] <;>
            omega)]
        rw [show c :: (cs ++ rest) = (c :: cs) ++ rest from rfl]
        exact parseNum_intTok (c :: cs) rest hok hrest
    | jstr s0 =>
      have hok : bytesOK s0 = true := by simpa [WFv] using h
      show parseValCore f (skipWS (quoteStr s0 ++ rest)) = _
      rw [show quoteStr s0 ++ rest = 34 :: (escStr s0 ++ 34 :: rest) by
        simp [quoteStr, List.append_assoc]]
      rw [skipWS_not_ws 34 _ (by decide)]
      rw [parseValCore]
      rw [if_neg (by decide), if_neg (by decide), if_neg (by decide), if_pos rfl]
      rw [parseStrBody_escape s0 hok rest]
      rfl
    | jarr xs =>
      cases xs with
      | nil =>
        show parseValCore f (skipWS ((91 :: (stringifyArr [] ++ [93])) ++ rest)) = _
        simp [stringifyArr, skipWS, isWS, parseValCore, parseArrBody]
      | cons x xs2 =>
        have hwf : WFarr (x :: xs2) = true := by simpa [WFv] using h
        have hwfx : WFv x = true := by
          have h2 : (WFv x && WFarr xs2) = true := hwf
          simp only [Bool.and_eq_true] at h2
          exact h2.1
        obtain ⟨c2, r2, harr, hg⟩ := stringifyArr_head x xs2 hwfx
        show parseValCore f (skipWS ((91 :: (stringifyArr (x :: xs2) ++ [93])) ++ rest)) = _
        rw [show (91 :: (stringifyArr (x :: xs2) ++ [93])) ++ rest =
          91 :: (stringifyArr (x :: xs2) ++ 93 :: rest) by simp [List.append_assoc]]
        rw [skipWS_not_ws 91 _ (by decide)]
        rw [parseValCore]
        rw [if_neg (by decide), if_neg (by decide), if_neg (by decide), if_neg (by decide),
          if_pos rfl]
        rw [harr]
        rw [show (c2 :: r2) ++ 93 :: rest = c2 :: (r2 ++ 93 :: rest) from rfl]
        rw [skipWS_not_ws c2 _ (goodHead_not_ws c2 hg)]
        rw [parseArrBody]
        rw [if_neg (goodHead_ne c2 hg).1]
        rw [show c2 :: (r2 ++ 93 :: rest) = (c2 :: r2) ++ 93 :: rest from rfl]
        rw [← harr]
        rw [parseElems_stringify (x :: xs2) (by simp) hwf rest f (by
          simp only [stringifyV, List.length_cons, List.length_append,
            List.length_nil] at hfuel
          omega)]
        rfl
    | jobj fs =>
      cases fs with
      | nil =>
        show parseValCore f (skipWS ((123 :: (stringifyObj [] ++ [125])) ++ rest)) = _
        simp [stringifyObj, skipWS, isWS, parseValCore, parseObjBody]
      | cons kv fs2 =>
        obtain ⟨k, v2⟩ := kv
        have hwf : WFobj ((k, v2) :: fs2) = true := by simpa [WFv] using h
        obtain ⟨robj, hobj⟩ := stringifyObj_head k v2 fs2
        show parseValCore f (skipWS ((123 :: (stringifyObj ((k, v2) :: fs2) ++ [125])) ++ rest)) = _
        rw [show (123 :: (stringifyObj ((k, v2) :: fs2) ++ [125])) ++ rest =
          123 :: (stringifyObj ((k, v2) :: fs2) ++ 125 :: rest) by simp [List.append_assoc]]
        rw [skipWS_not_ws 123 _ (by decide)]
        rw [parseValCore]
        rw [if_neg (by decide), if_neg (by decide), if_neg (by decide), if_neg (by decide),
          if_neg (by decide), if_pos rfl]
        rw [hobj]
        rw [show (34 :: robj) ++ 125 :: rest = 34 :: (robj ++ 125 :: rest) from rfl]
        rw [skipWS_not_ws 34 _ (by decide)]
        rw [parseObjBody]
        rw [if_neg (by decide)]
        rw [show 34 :: (robj ++ 125 :: rest) = (34 :: robj) ++ 125 :: rest from rfl]
        rw [← hobj]
        rw [parseFields_stringify ((k, v2) :: fs2) (by simp) hwf rest f (by
          simp only [stringifyV, List.length_cons, List.length_append,
            List.length_nil] at hfuel
          omega)]
        rfl

theorem parseElems_stringify (xs : List JVal) (hne : xs ≠ []) (h : WFarr xs = true)
    (rest : List Nat) (fuel : Nat) (hfuel : (stringifyArr xs).length + 1 < fuel) :
    parseElems fuel (stringifyArr xs ++ 93 :: rest) = some (xs, rest) := by
  cases fuel with
  | zero => omega
  | succ f =>
    cases xs with
    | nil => exact absurd rfl hne
    | cons x xs2 =>
      have hx : WFv x = true := by
        have h2 : (WFv x && WFarr xs2) = true := h
        simp only [Bool.and_eq_true] at h2
        exact h2.1
      have hxs2 : WFarr xs2 = true := by
        have h2 : (WFv x && WFarr xs2) = true := h
        simp only [Bool.and_eq_true] at h2
        exact h2.2
      rw [parseElems]
      cases xs2 with
      | nil =>
        rw [show stringifyArr [x] = stringifyV x from rfl]
        rw [parseVal_stringify x hx (93 :: rest)
          (Or.inr ⟨93, rest, rfl, Or.inr (Or.inl rfl)⟩) f (by
            have : (stringifyArr [x]).length = (stringifyV x).length := rfl
            omega)]
        simp only [Option.some_bind]
        rw [skipWS_not_ws 93 _ (by decide)]
        rw [parseElemsTail]
        rw [if_neg (by decide), if_pos rfl]
      | cons x2 xs3 =>
        have hlen : 1 ≤ (stringifyV x).length := stringify_len_pos x hx
        rw [show stringifyArr (x :: x2 :: xs3) ++ 93 :: rest =
          stringifyV x ++ (44 :: (stringifyArr (x2 :: xs3) ++ 93 :: rest)) by
          show (stringifyV x ++ 44 :: stringifyArr (x2 :: xs3)) ++ 93 :: rest = _
          simp [List.append_assoc]]
        rw [parseVal_stringify x hx _
          (Or.inr ⟨44, _, rfl, Or.inl rfl⟩) f (by
            simp only [stringifyArr, List.length_append, List.length_cons] at hfuel
            omega)]
        simp only [Option.some_bind]
        rw [skipWS_not_ws 44 _ (by decide)]
        rw [parseElemsTail]
        rw [if_pos rfl]
        rw [parseElems_stringify (x2 :: xs3) (by simp) hxs2 rest f (by
          simp only [stringifyArr, List.length_append, List.length_cons] at hfuel
          omega)]
        rfl

theorem parseFields_stringify (fs : List (List Nat × JVal)) (hne : fs ≠ [])
    (h : WFobj fs = true) (rest : List Nat) (fuel : Nat)
    (hfuel : (stringifyObj fs).length + 1 < fuel) :
    parseFields fuel (stringifyObj fs ++ 125 :: rest) = some (fs, rest) := by
  cases fuel with
  | zero => omega
  | succ f =>
    cases fs with
    | nil => exact absurd rfl hne
    | cons kv fs2 =>
      obtain ⟨k, v⟩ := kv
      rw [show WFobj ((k, v) :: fs2) =
        (bytesOK k && WFv v && keyNotIn k fs2 && WFobj fs2) from WFobj.eq_2 k v fs2] at h
      simp only [Bool.and_eq_true] at h
      have hk : bytesOK k = true := h.1.1.1
      have hv : WFv v = true := h.1.1.2
      have hfs2 : WFobj fs2 = true := h.2
      have hlenq : (quoteStr k).length = (escStr k).length + 2 := by
        simp [quoteStr]
      rw [parseFields]
      cases fs2 with
      | nil =>
        rw [show stringifyObj [(k, v)] ++ 125 :: rest =
          34 :: (escStr k ++ 34 :: (58 :: (stringifyV v ++ 125 :: rest))) by
          show (quoteStr k ++ 58 :: stringifyV v) ++ 125 :: rest = _
          simp [quoteStr, List.append_assoc]]
        rw [skipWS_not_ws 34 _ (by decide)]
        rw [parseFieldsCore]
        rw [if_pos rfl]
        rw [parseStrBody_escape k hk _]
        simp only [Option.some_bind]
        rw [skipWS_not_ws 58 _ (by decide)]
        rw [parseFieldsKey]
        rw [if_pos rfl]
        rw [parseVal_stringify v hv (125 :: rest)
          (Or.inr ⟨125, rest, rfl, Or.inr (Or.inr rfl)⟩) f (by
            have hlen : (stringifyObj [(k, v)]).length =
                (quoteStr k).length + 1 + (stringifyV v).length := by
              show (quoteStr k ++ 58 :: stringifyV v).length = _
              simp [List.length_append]
              omega
            omega)]
        simp only [Option.some_bind]
        rw [skipWS_not_ws 125 _ (by decide)]
        rw [parseFieldsVal]
        rw [if_neg (by decide), if_pos rfl]
      | cons f2 fs3 =>
        have hlenv : 1 ≤ (stringifyV v).length := stringify_len_pos v hv
        have hlen : (stringifyObj ((k, v) :: f2 :: fs3)).length =
            (quoteStr k).length + 1 + (stringifyV v).length + 1 +
              (stringifyObj (f2 :: fs3)).length := by
          show (quoteStr k ++ 58 :: stringifyV v ++ 44 :: stringifyObj (f2 :: fs3)).length = _
          simp [List.length_append]
          omega
        rw [show stringifyObj ((k, v) :: f2 :: fs3) ++ 125 :: rest =
          34 :: (escStr k ++ 34 :: (58 :: (stringifyV v ++
            (44 :: (stringifyObj (f2 :: fs3) ++ 125 :: rest))))) by
          show (quoteStr k ++ 58 :: stringifyV v ++ 44 :: stringifyObj (f2 :: fs3)) ++
            125 :: rest = _
          simp [quoteStr, List.append_assoc]]
        rw [skipWS_not_ws 34 _ (by decide)]
        rw [parseFieldsCore]
        rw [if_pos rfl]
        rw [parseStrBody_escape k hk _]
        simp only [Option.some_bind]
        rw [skipWS_not_ws 58 _ (by decide)]
        rw [parseFieldsKey]
        rw [if_pos rfl]
        rw [parseVal_stringify v hv _
          (Or.inr ⟨44, _, rfl, Or.inl rfl⟩) f (by omega)]
        simp only [Option.some_bind]
        rw [skipWS_not_ws 44 _ (by decide)]
        rw [parseFieldsVal]
        rw [if_pos rfl]
        rw [parseFields_stringify (f2 :: fs3) (by simp) hfs2 rest f (by omega)]
        rfl

end

theorem parse_stringify (v : JVal) (h : WFv v = true) : parse (stringifyV v) = some v := by
  unfold parse
  have h1 := parseVal_stringify v h [] (Or.inl rfl) ((stringifyV v).length + 1) (by omega)
  rw [List.append_nil] at h1
  rw [h1]
  simp [skipWS]

theorem bigIntToData_nonstr (v : JVal) (hwf : WFv v = true)
    (hds : dataBytes v = stringifyV v) : bigIntToData (dataToBigInt v) = v := by
  obtain ⟨c, r, heq, hg⟩ := stringify_head v hwf
  have hc0 : c ≠ 0 := (goodHead_ne c hg).2.2.2.1
  have hnz : headNZ (stringifyV v) = true := by
    rw [heq]
    simp only [headNZ, bne_iff_ne, ne_eq]
    exact hc0
  have hok := stringify_bytesOK v hwf
  have hm : dataToBigInt v = bytesToNat (stringifyV v) := by
    show bufToBigInt (dataBytes v) = _
    rw [hds]
    exact bufToBigInt_eq _
  have hpos : 0 < bytesToNat (stringifyV v) := by
    rw [heq]
    exact bytesToNat_pos c r hc0
  rw [hm]
  unfold bigIntToData
  rw [if_neg (by omega)]
  rw [bigIntToBytes_bytesToNat (stringifyV v) (by rw [heq]; simp) hok hnz]
  show (match parse (stringifyV v) with
    | some v2 => v2
    | none => JVal.jstr (stringifyV v)) = v
  rw [parse_stringify v hwf]

theorem bigIntToData_dataToBigInt (data : JVal) (h : WFdata data = true) :
    bigIntToData (dataToBigInt data) = data := by
  cases data with
  | jstr s =>
    simp only [WFdata, Bool.and_eq_true] at h
    have hok : bytesOK s = true := h.1.1
    have hnz : headNZ s = true := h.1.2
    have hpn : parse s = none := by
      have := h.2
      simpa [Option.isNone_iff_eq_none] using this
    cases s with
    | nil =>
      show bigIntToData (bufToBigInt []) = _
      rw [show bufToBigInt [] = 0 from rfl]
      rfl
    | cons b s2 =>
      have hm : dataToBigInt (.jstr (b :: s2)) = bytesToNat (b :: s2) := by
        show bufToBigInt (b :: s2) = _
        exact bufToBigInt_eq _
      have hb : b ≠ 0 := by
        simp only [headNZ, bne_iff_ne, ne_eq] at hnz
        exact hnz
      have hpos : 0 < bytesToNat (b :: s2) := bytesToNat_pos b s2 hb
      rw [hm]
      unfold bigIntToData
      rw [if_neg (by omega)]
      rw [bigIntToBytes_bytesToNat (b :: s2) (by simp) hok hnz]
      show (match parse (b :: s2) with
        | some v2 => v2
        | none => JVal.jstr (b :: s2)) = JVal.jstr (b :: s2)
      rw [hpn]
  | jnull => exact bigIntToData_nonstr _ (by simpa [WFdata] using h) rfl
  | jbool b => exact bigIntToData_nonstr _ (by simpa [WFdata] using h) rfl
  | jnum t => exact bigIntToData_nonstr _ (by simpa [WFdata] using h) rfl
  | jarr xs => exact bigIntToData_nonstr _ (by simpa [WFdata] using h) rfl
  | jobj fs => exact bigIntToData_nonstr _ (by simpa [WFdata] using h) rfl

-- ============================================================================
-- LEMMAS: MODULAR INVERSE AND TEXTBOOK RSA
-- ============================================================================

theorem modInv_correct (a m : Nat) (h : Nat.gcd a m = 1) (hm : 2 ≤ m) :
    (a * modInv a m) % m = 1 := by
  have hb := Nat.gcd_eq_gcd_ab a m
  rw [h] at hb
  have hmpos : (0 : ℤ) < (m : ℤ) := by exact_mod_cast (by omega : 0 < m)
  have hmne : (m : ℤ) ≠ 0 := ne_of_gt hmpos
  have hXnn : 0 ≤ (Nat.gcdA a m % (m : ℤ) + m) % (m : ℤ) := Int.emod_nonneg _ hmne
  have hXX : ((Nat.gcdA a m % (m : ℤ) + m) % (m : ℤ)) % (m : ℤ) =
      Nat.gcdA a m % (m : ℤ) := by
    rw [Int.emod_emod_of_dvd _ dvd_rfl,
      show (Nat.gcdA a m % (m : ℤ) + m) = Nat.gcdA a m % (m : ℤ) + m * 1 by ring,
      Int.add_mul_emod_self_left, Int.emod_emod_of_dvd _ dvd_rfl]
  have htn : ((modInv a m : Nat) : ℤ) = (Nat.gcdA a m % (m : ℤ) + m) % (m : ℤ) := by
    unfold modInv
    exact Int.toNat_of_nonneg hXnn
  have key : ((a : ℤ) * ((Nat.gcdA a m % (m : ℤ) + m) % (m : ℤ))) % m = 1 := by
    rw [Int.mul_emod, hXX, ← Int.mul_emod]
    have h2 : (a : ℤ) * Nat.gcdA a m = 1 - m * Nat.gcdB a m := by
      push_cast at hb
      linarith [hb]
    rw [h2, Int.sub_emod, Int.mul_emod_right, sub_zero, Int.emod_emod_of_dvd _ dvd_rfl]
    exact Int.emod_eq_of_lt (by norm_num) (by exact_mod_cast (by omega : 1 < m))
  have hcast : (((a * modInv a m) % m : Nat) : ℤ) = 1 := by
    push_cast
    rw [htn]
    exact key
  exact_mod_cast hcast

theorem pow_totient_step (r : Nat) (hr : r.Prime) (t m : Nat) :
    m ^ ((r - 1) * t + 1) ≡ m [MOD r] := by
  by_cases hdvd : r ∣ m
  · have h0 : m ≡ 0 [MOD r] := (Nat.modEq_zero_iff_dvd).mpr hdvd
    calc m ^ ((r - 1) * t + 1) ≡ 0 ^ ((r - 1) * t + 1) [MOD r] := h0.pow _
      _ = 0 := by simp
      _ ≡ m [MOD r] := h0.symm
  · have hco : Nat.Coprime m r := (Nat.coprime_comm.mp ((Nat.Prime.coprime_iff_not_dvd hr).mpr hdvd))
    have hf : m ^ (r - 1) ≡ 1 [MOD r] := by
      have := Nat.ModEq.pow_totient hco
      rwa [Nat.totient_prime hr] at this
    calc m ^ ((r - 1) * t + 1) = (m ^ (r - 1)) ^ t * m := by
          rw [pow_add, pow_mul, pow_one]
      _ ≡ 1 ^ t * m [MOD r] := Nat.ModEq.mul ((hf.pow t)) Nat.ModEq.rfl
      _ = m := by simp

theorem rsa_correct (p q e d m : Nat) (hp : p.Prime) (hq : q.Prime) (hne : p ≠ q)
    (hed : (e * d) % ((p - 1) * (q - 1)) = 1) (hm : m < p * q) :
    (m ^ e % (p * q)) ^ d % (p * q) = m := by
  have hp2 := hp.two_le
  have hq2 := hq.two_le
  have hφpos : 0 < (p - 1) * (q - 1) := Nat.mul_pos (by omega) (by omega)
  have h0 := Nat.div_add_mod (e * d) ((p - 1) * (q - 1))
  rw [hed] at h0
  have hed1 : 1 ≤ e * d := by omega
  have h1 : m ^ (e * d) ≡ m [MOD p] := by
    have harr : e * d = (p - 1) * ((q - 1) * (e * d / ((p - 1) * (q - 1)))) + 1 := by
      conv_lhs => rw [← h0]
      ring
    rw [harr]
    exact pow_totient_step p hp _ m
  have h2 : m ^ (e * d) ≡ m [MOD q] := by
    have harr : e * d = (q - 1) * ((p - 1) * (e * d / ((p - 1) * (q - 1)))) + 1 := by
      conv_lhs => rw [← h0]
      ring
    rw [harr]
    exact pow_totient_step q hq _ m
  have hco : Nat.Coprime p q := (Nat.coprime_primes hp hq).mpr hne
  have h3 : m ^ (e * d) ≡ m [MOD p * q] :=
    (Nat.modEq_and_modEq_iff_modEq_mul hco).mp ⟨h1, h2⟩
  have h4 : (m ^ e % (p * q)) ^ d ≡ m ^ (e * d) [MOD p * q] := by
    calc (m ^ e % (p * q)) ^ d ≡ (m ^ e) ^ d [MOD p * q] := (Nat.mod_modEq _ _).pow d
      _ = m ^ (e * d) := by rw [← pow_mul]
  have h5 : (m ^ e % (p * q)) ^ d ≡ m [MOD p * q] := h4.trans h3
  have h6 : (m ^ e % (p * q)) ^ d % (p * q) = m % (p * q) := h5
  rw [h6, Nat.mod_eq_of_lt hm]

-- ============================================================================
-- LEMMAS: KEY GENERATION LOOP
-- ============================================================================

theorem generateKeysLoop_spec (draw : Nat → Nat × Nat) (fuel : Nat) : ∀ k0 kp,
    generateKeysLoop draw fuel k0 = some kp →
    ∃ i, k0 ≤ i ∧
      (∀ j, k0 ≤ j → j < i → (draw j).1 = (draw j).2 ∨
        Nat.gcd 65537 (((draw j).1 - 1) * ((draw j).2 - 1)) ≠ 1) ∧
      (draw i).1 ≠ (draw i).2 ∧
      Nat.gcd 65537 (((draw i).1 - 1) * ((draw i).2 - 1)) = 1 ∧
      kp = ⟨⟨65537, (draw i).1 * (draw i).2⟩,
            ⟨modInv 65537 (((draw i).1 - 1) * ((draw i).2 - 1)), (draw i).1 * (draw i).2⟩⟩ := by
  induction fuel with
  | zero =>
    intro k0 kp h
    exact absurd h (by simp [generateKeysLoop])
  | succ f ih =>
    intro k0 kp h
    rw [generateKeysLoop] at h
    by_cases hcond : ((draw k0).1 == (draw k0).2 ||
        Nat.gcd 65537 (((draw k0).1 - 1) * ((draw k0).2 - 1)) != 1) = true
    · rw [if_pos hcond] at h
      obtain ⟨i, hge, hrej, hne2, hgcd, hkp⟩ := ih (k0 + 1) kp h
      refine ⟨i, by omega, ?_, hne2, hgcd, hkp⟩
      intro j hj1 hj2
      by_cases hj : j = k0
      · subst hj
        simpa [beq_iff_eq, bne_iff_ne] using hcond
      · exact hrej j (by omega) hj2
    · rw [if_neg hcond] at h
      injection h with h2
      simp only [Bool.or_eq_true, beq_iff_eq, bne_iff_ne, not_or, Decidable.not_not] at hcond
      push_neg at hcond
      exact ⟨k0, le_refl _, fun j hj1 hj2 => (Nat.lt_irrefl k0 (Nat.lt_of_le_of_lt hj1 hj2)).elim,
        hcond.1, hcond.2, h2.symm⟩

-- ============================================================================
-- LEMMAS: TRANSFORM ENGINE PLUMBING
-- ============================================================================

theorem encrypt_ok (pk : PublicKey) (priv0 : Option PrivateKey) (data : JVal)
    (hm : dataToBigInt data < pk.n) :
    encrypt ⟨some pk, priv0⟩ data =
      .ok (bigIntToBase64 (modPow (dataToBigInt data) pk.e pk.n)) := by
  simp only [encrypt]
  rw [if_neg (by omega)]

theorem encrypt_decrypt_eq (p q : Nat) (pk : PublicKey) (sk : PrivateKey)
    (pub0 : Option PublicKey) (priv0 : Option PrivateKey) (data : JVal)
    (hp : Nat.Prime p) (hq : Nat.Prime q) (hne : p ≠ q)
    (hpk : pk.n = p * q) (hsk : sk.n = p * q)
    (hed : (pk.e * sk.d) % ((p - 1) * (q - 1)) = 1)
    (hm : dataToBigInt data < pk.n) :
    (encrypt ⟨some pk, priv0⟩ data).bind (fun ct => decrypt ⟨pub0, some sk⟩ ct) =
      Except.ok (bigIntToData (dataToBigInt data)) := by
  rw [encrypt_ok pk priv0 data hm]
  show decrypt ⟨pub0, some sk⟩ (bigIntToBase64 (modPow (dataToBigInt data) pk.e pk.n)) = _
  simp only [decrypt]
  rw [base64ToBigInt_bigIntToBase64]
  have hrsa : modPow (modPow (dataToBigInt data) pk.e pk.n) sk.d sk.n = dataToBigInt data := by
    unfold modPow
    rw [hpk, hsk]
    exact rsa_correct p q pk.e sk.d (dataToBigInt data) hp hq hne hed (by omega)
  rw [hrsa]

theorem sign_verify_eq (p q : Nat) (pk : PublicKey) (sk : PrivateKey)
    (pub0 : Option PublicKey) (priv0 : Option PrivateKey) (data : JVal)
    (hp : Nat.Prime p) (hq : Nat.Prime q) (hne : p ≠ q)
    (hpk : pk.n = p * q) (hsk : sk.n = p * q)
    (hed : (pk.e * sk.d) % ((p - 1) * (q - 1)) = 1)
    (hm : dataToBigInt data < pk.n) :
    verify ⟨some pk, priv0⟩ data (bigIntToBase64 (modPow (dataToBigInt data) sk.d sk.n)) =
      .ok true := by
  simp only [verify]
  rw [base64ToBigInt_bigIntToBase64]
  have hrsa : modPow (modPow (dataToBigInt data) sk.d sk.n) pk.e pk.n = dataToBigInt data := by
    unfold modPow
    rw [hpk, hsk]
    exact rsa_correct p q sk.d pk.e (dataToBigInt data) hp hq hne
      (by rw [Nat.mul_comm] at hed; exact hed) (by omega)
  rw [hrsa]
  simp

theorem prime5 : Nat.Prime 5 := by norm_num
theorem prime11 : Nat.Prime 11 := by norm_num
theorem prime13 : Nat.Prime 13 := by norm_num
theorem prime1999 : Nat.Prime 1999 := by norm_num
theorem prime2003 : Nat.Prime 2003 := by norm_num

theorem exportPublicKey_body (pk : PublicKey) :
    exportPublicKey pk = b64encode (stringifyV
      (.jobj [([101], .jstr (decRep pk.e)), ([110], .jstr (decRep pk.n))])) := rfl

theorem exportPrivateKey_body (sk : PrivateKey) :
    exportPrivateKey sk = b64encode (stringifyV
      (.jobj [([100], .jstr (decRep sk.d)), ([110], .jstr (decRep sk.n))])) := rfl

theorem exportPublicKey_WF (pk : PublicKey) :
    WFv (.jobj [([101], .jstr (decRep pk.e)), ([110], .jstr (decRep pk.n))]) = true := by
  have h1 := digits_bytesOK _ (decRep_digits pk.e)
  have h2 := digits_bytesOK _ (decRep_digits pk.n)
  rw [show WFv (.jobj [([101], .jstr (decRep pk.e)), ([110], .jstr (decRep pk.n))]) =
    WFobj [([101], .jstr (decRep pk.e)), ([110], .jstr (decRep pk.n))] from WFv.eq_6 _]
  rw [WFobj.eq_2, WFobj.eq_2, WFobj.eq_1]
  rw [show WFv (.jstr (decRep pk.e)) = bytesOK (decRep pk.e) from WFv.eq_4 _]
  rw [show WFv (.jstr (decRep pk.n)) = bytesOK (decRep pk.n) from WFv.eq_4 _]
  rw [h1, h2]
  rfl

theorem exportPrivateKey_WF (sk : PrivateKey) :
    WFv (.jobj [([100], .jstr (decRep sk.d)), ([110], .jstr (decRep sk.n))]) = true := by
  have h1 := digits_bytesOK _ (decRep_digits sk.d)
  have h2 := digits_bytesOK _ (decRep_digits sk.n)
  rw [show WFv (.jobj [([100], .jstr (decRep sk.d)), ([110], .jstr (decRep sk.n))]) =
    WFobj [([100], .jstr (decRep sk.d)), ([110], .jstr (decRep sk.n))] from WFv.eq_6 _]
  rw [WFobj.eq_2, WFobj.eq_2, WFobj.eq_1]
  rw [show WFv (.jstr (decRep sk.d)) = bytesOK (decRep sk.d) from WFv.eq_4 _]
  rw [show WFv (.jstr (decRep sk.n)) = bytesOK (decRep sk.n) from WFv.eq_4 _]
  rw [h1, h2]
  rfl

theorem importPublicKey_of_decode (s : List Nat) (pk : PublicKey)
    (hs : b64decode s = stringifyV
      (.jobj [([101], .jstr (decRep pk.e)), ([110], .jstr (decRep pk.n))])) :
    importPublicKey s = some pk := by
  unfold importPublicKey
  rw [hs, parse_stringify _ (exportPublicKey_WF pk)]
  show (match fieldToBigInt (lookupLast [101] [([101], .jstr (decRep pk.e)),
      ([110], .jstr (decRep pk.n))]),
    fieldToBigInt (lookupLast [110] [([101], .jstr (decRep pk.e)),
      ([110], .jstr (decRep pk.n))]) with
    | some e, some n => some (⟨e, n⟩ : PublicKey)
    | _, _ => none) = some pk
  have he : lookupLast [101] [([101], .jstr (decRep pk.e)), ([110], .jstr (decRep pk.n))] =
      some (.jstr (decRep pk.e)) := rfl
  have hn : lookupLast [110] [([101], .jstr (decRep pk.e)), ([110], .jstr (decRep pk.n))] =
      some (.jstr (decRep pk.n)) := rfl
  rw [he, hn]
  show (match parseDec (decRep pk.e), parseDec (decRep pk.n) with
    | some e, some n => some (⟨e, n⟩ : PublicKey)
    | _, _ => none) = some pk
  rw [parseDec_decRep, parseDec_decRep]

theorem importPrivateKey_of_decode (s : List Nat) (sk : PrivateKey)
    (hs : b64decode s = stringifyV
      (.jobj [([100], .jstr (decRep sk.d)), ([110], .jstr (decRep sk.n))])) :
    importPrivateKey s = some sk := by
  unfold importPrivateKey
  rw [hs, parse_stringify _ (exportPrivateKey_WF sk)]
  show (match fieldToBigInt (lookupLast [100] [([100], .jstr (decRep sk.d)),
      ([110], .jstr (decRep sk.n))]),
    fieldToBigInt (lookupLast [110] [([100], .jstr (decRep sk.d)),
      ([110], .jstr (decRep sk.n))]) with
    | some d, some n => some (⟨d, n⟩ : PrivateKey)
    | _, _ => none) = some sk
  have hd : lookupLast [100] [([100], .jstr (decRep sk.d)), ([110], .jstr (decRep sk.n))] =
      some (.jstr (decRep sk.d)) := rfl
  have hn : lookupLast [110] [([100], .jstr (decRep sk.d)), ([110], .jstr (decRep sk.n))] =
      some (.jstr (decRep sk.n)) := rfl
  rw [hd, hn]
  show (match parseDec (decRep sk.d), parseDec (decRep sk.n) with
    | some d, some n => some (⟨d, n⟩ : PrivateKey)
    | _, _ => none) = some sk
  rw [parseDec_decRep, parseDec_decRep]

/-- The totient of a two-distinct-prime modulus is at least 2, as
`modInv_correct` requires. -/
theorem phi_two_le (p q : Nat) (hp : p.Prime) (hq : q.Prime) (hne : p ≠ q) :
    2 ≤ (p - 1) * (q - 1) := by
  have h2p := hp.two_le
  have h2q := hq.two_le
  rcases Nat.lt_or_ge p 3 with h | h
  · have hq3 : 3 ≤ q := by omega
    calc 2 ≤ q - 1 := by omega
      _ = 1 * (q - 1) := (one_mul _).symm
      _ ≤ (p - 1) * (q - 1) := Nat.mul_le_mul_right _ (by omega)
  · calc 2 = 2 * 1 := rfl
      _ ≤ (p - 1) * (q - 1) := Nat.mul_le_mul (by omega) (by omega)

-- ============================================================================
-- CLAIM THEOREMS
-- ============================================================================

/-- Claim C1 (amended): for an engine holding a matching valid key pair and a
well-formed data value whose encoded integer is below the modulus, the
decrypt-of-encrypt round trip returns the data exactly.  Well-formedness
(`WFdata`) restricts strings to those that do not themselves parse as JSON
and do not start with a zero byte: `c1_counterexample` shows the spec's
unrestricted string claim fails. -/
theorem c1_round_trip (p q : Nat) (pk : PublicKey) (sk : PrivateKey)
    (pub0 : Option PublicKey) (priv0 : Option PrivateKey) (data : JVal)
    (hp : Nat.Prime p) (hq : Nat.Prime q) (hne : p ≠ q)
    (hpk : pk.n = p * q) (hsk : sk.n = p * q)
    (hed : (pk.e * sk.d) % ((p - 1) * (q - 1)) = 1)
    (hwf : WFdata data = true)
    (hm : dataToBigInt data < pk.n) :
    (encrypt ⟨some pk, priv0⟩ data).bind (fun ct => decrypt ⟨pub0, some sk⟩ ct) =
      Except.ok data := by
  rw [encrypt_decrypt_eq p q pk sk pub0 priv0 data hp hq hne hpk hsk hed hm,
    bigIntToData_dataToBigInt data hwf]

/-- Witness for C1: the one-byte string `*` round-trips through the valid key
pair `n = 55 = 5 * 11`, `e = 3`, `d = 27`. -/
theorem c1_round_trip_witness :
    (encrypt ⟨some ⟨3, 55⟩, none⟩ (.jstr [42])).bind
      (fun ct => decrypt ⟨none, some ⟨27, 55⟩⟩ ct) = Except.ok (.jstr [42]) :=
  c1_round_trip 5 11 ⟨3, 55⟩ ⟨27, 55⟩ none none (.jstr [42]) (by decide) (by decide)
    (by decide) rfl rfl (by decide)
    (by simp [WFdata, bytesOK, headNZ, parse, parseVal, parseValCore, parseArrBody, parseObjBody,
      parseElems, parseElemsTail, parseFields, parseFieldsCore, parseFieldsKey, parseFieldsVal,
      parseNum, parseIntPart, parseFrac, parseExp, spanDigits, numSign, numTail, skipWS, isWS,
      isDigit, dropWord, parseStrBody, parseEsc, parseU, simpleEscape, hexDigitVal])
    (by decide)

/-- Counterexample for C1: the UTF-8 string "123" (bytes 49, 50, 51) is a
supported data shape, the key pair `n = 4003997 = 2003 * 1999`, `e = 65537`,
`d = 627065` is valid, and the encoded integer 3224115 is below the modulus,
yet the round trip returns the JSON number 123, not the original string:
decoding guesses string-vs-JSON by attempting a parse. -/
theorem c1_counterexample :
    Nat.Prime 2003 ∧ Nat.Prime 1999 ∧ (2003 : Nat) ≠ 1999 ∧
    (4003997 : Nat) = 2003 * 1999 ∧
    (65537 * 627065) % ((2003 - 1) * (1999 - 1)) = 1 ∧
    dataToBigInt (.jstr [49, 50, 51]) < 4003997 ∧
    (encrypt ⟨some ⟨65537, 4003997⟩, none⟩ (.jstr [49, 50, 51])).bind
      (fun ct => decrypt ⟨none, some ⟨627065, 4003997⟩⟩ ct) =
      Except.ok (.jnum [49, 50, 51]) ∧
    JVal.jnum [49, 50, 51] ≠ JVal.jstr [49, 50, 51] := by
  refine ⟨prime2003, prime1999, by decide, rfl, by decide, by decide, ?_,
    fun h => JVal.noConfusion h⟩
  rw [encrypt_decrypt_eq 2003 1999 ⟨65537, 4003997⟩ ⟨627065, 4003997⟩ none none
    (.jstr [49, 50, 51]) prime2003 prime1999 (by decide) rfl rfl (by decide) (by decide)]
  have hd : dataToBigInt (.jstr [49, 50, 51]) = 3224115 := rfl
  rw [hd]
  have hb : bigIntToBytes 3224115 = [49, 50, 51] := by simp [bigIntToBytes, hexRep, hexToBytes]
  have hp : parse [49, 50, 51] = some (.jnum [49, 50, 51]) := by
    simp [parse, parseVal, parseValCore, parseArrBody, parseObjBody,
      parseElems, parseElemsTail, parseFields, parseFieldsCore, parseFieldsKey, parseFieldsVal,
      parseNum, parseIntPart, parseFrac, parseExp, spanDigits, numSign, numTail, skipWS, isWS,
      isDigit, dropWord, parseStrBody, parseEsc, parseU, simpleEscape, hexDigitVal]
  rw [show bigIntToData 3224115 = (match parse (bigIntToBytes 3224115) with
    | some v => v | none => .jstr (bigIntToBytes 3224115)) from by
      rw [bigIntToData, if_neg (by decide : ¬(3224115 = 0))]]
  rw [hb, hp]

/-- Claim C2: when the prime oracle returns primes, every key pair the
generation loop returns shares its modulus between the public and private
halves, and raising any residue below the modulus to the public then the
private exponent restores it. -/
theorem c2_keypair_valid (draw : Nat → Nat × Nat) (fuel k0 m : Nat) (kp : KeyPair)
    (hprime : ∀ k, ((draw k).1).Prime ∧ ((draw k).2).Prime)
    (hgen : generateKeysLoop draw fuel k0 = some kp)
    (hm : m < kp.publicKey.n) :
    kp.publicKey.n = kp.privateKey.n ∧
    modPow (modPow m kp.publicKey.e kp.publicKey.n) kp.privateKey.d kp.privateKey.n = m := by
  obtain ⟨i, hge, hrej, hne, hgcd, hkp⟩ := generateKeysLoop_spec draw fuel k0 kp hgen
  obtain ⟨hp, hq⟩ := hprime i
  subst hkp
  refine ⟨rfl, ?_⟩
  have hphi : 2 ≤ ((draw i).1 - 1) * ((draw i).2 - 1) := phi_two_le _ _ hp hq hne
  have hed := modInv_correct 65537 _ hgcd hphi
  unfold modPow
  exact rsa_correct _ _ _ _ m hp hq hne hed hm

/-- Witness for C2: the pair generated from the primes 5 and 11 decrypts the
residue 42. -/
theorem c2_keypair_valid_witness :
    (55 : Nat) = 55 ∧ modPow (modPow 42 65537 55) (modInv 65537 40) 55 = 42 :=
  c2_keypair_valid (fun _ => (5, 11)) 1 0 42 ⟨⟨65537, 55⟩, ⟨modInv 65537 40, 55⟩⟩
    (fun _ => ⟨prime5, prime11⟩) rfl (by decide)

/-- Claim C3: `sign` encodes the data with the same `dataToBigInt` encoder
`encrypt` uses and returns the base64 text of the private-exponent power, and
verifying a fresh signature of the data with the matching public key returns
`true`. -/
theorem c3_sign_verify (p q : Nat) (pk : PublicKey) (sk : PrivateKey)
    (pub0 : Option PublicKey) (priv0 : Option PrivateKey) (data : JVal)
    (hp : Nat.Prime p) (hq : Nat.Prime q) (hne : p ≠ q)
    (hpk : pk.n = p * q) (hsk : sk.n = p * q)
    (hed : (pk.e * sk.d) % ((p - 1) * (q - 1)) = 1)
    (hm : dataToBigInt data < pk.n) :
    encrypt ⟨some pk, priv0⟩ data =
      .ok (bigIntToBase64 (modPow (dataToBigInt data) pk.e pk.n)) ∧
    sign ⟨pub0, some sk⟩ data =
      .ok (bigIntToBase64 (modPow (dataToBigInt data) sk.d sk.n)) ∧
    (sign ⟨pub0, some sk⟩ data).bind
      (fun sg => verify ⟨some pk, priv0⟩ data sg) = .ok true := by
  refine ⟨encrypt_ok pk priv0 data hm, rfl, ?_⟩
  show verify ⟨some pk, priv0⟩ data (bigIntToBase64 (modPow (dataToBigInt data) sk.d sk.n)) =
    .ok true
  exact sign_verify_eq p q pk sk pub0 priv0 data hp hq hne hpk hsk hed hm

/-- Witness for C3: signing the one-byte string `*` with `d = 27`, `n = 55`
verifies under `e = 3`. -/
theorem c3_sign_verify_witness :
    encrypt ⟨some ⟨3, 55⟩, none⟩ (.jstr [42]) =
      .ok (bigIntToBase64 (modPow (dataToBigInt (.jstr [42])) 3 55)) ∧
    sign ⟨none, some ⟨27, 55⟩⟩ (.jstr [42]) =
      .ok (bigIntToBase64 (modPow (dataToBigInt (.jstr [42])) 27 55)) ∧
    (sign ⟨none, some ⟨27, 55⟩⟩ (.jstr [42])).bind
      (fun sg => verify ⟨some ⟨3, 55⟩, none⟩ (.jstr [42]) sg) = .ok true :=
  c3_sign_verify 5 11 ⟨3, 55⟩ ⟨27, 55⟩ none none (.jstr [42]) (by decide) (by decide)
    (by decide) rfl rfl (by decide) (by decide)

/-- Claim C4: with a public key loaded, `encrypt` fails with the
data-too-large message exactly when the encoded integer reaches the modulus,
and no state of `decrypt`, `sign` or `verify` ever produces that message. -/
theorem c4_data_too_large (pk : PublicKey) (priv0 : Option PrivateKey)
    (rsa : Engine) (data : JVal) (ct sig : List Nat) :
    (encrypt ⟨some pk, priv0⟩ data = .error dataTooLargeMsg ↔ pk.n ≤ dataToBigInt data) ∧
    decrypt rsa ct ≠ .error dataTooLargeMsg ∧
    sign rsa data ≠ .error dataTooLargeMsg ∧
    verify rsa data sig ≠ .error dataTooLargeMsg := by
  obtain ⟨pub1, priv1⟩ := rsa
  refine ⟨⟨?_, ?_⟩, ?_, ?_, ?_⟩
  · intro h
    by_contra hlt
    rw [show encrypt ⟨some pk, priv0⟩ data = (if pk.n ≤ dataToBigInt data then
      Except.error dataTooLargeMsg else
      Except.ok (bigIntToBase64 (modPow (dataToBigInt data) pk.e pk.n))) from rfl,
      if_neg hlt] at h
    exact Except.noConfusion h
  · intro hle
    rw [show encrypt ⟨some pk, priv0⟩ data = (if pk.n ≤ dataToBigInt data then
      Except.error dataTooLargeMsg else
      Except.ok (bigIntToBase64 (modPow (dataToBigInt data) pk.e pk.n))) from rfl,
      if_pos hle]
  · cases priv1 with
    | none =>
      intro hcontra
      rw [show decrypt ⟨pub1, none⟩ ct = .error privKeyMissingMsg from rfl] at hcontra
      injection hcontra with h2
      exact absurd h2 (by decide)
    | some sk =>
      intro hcontra
      rw [show decrypt ⟨pub1, some sk⟩ ct =
        .ok (bigIntToData (modPow (base64ToBigInt ct) sk.d sk.n)) from rfl] at hcontra
      exact Except.noConfusion hcontra
  · cases priv1 with
    | none =>
      intro hcontra
      rw [show sign ⟨pub1, none⟩ data = .error signMissingKeyMsg from rfl] at hcontra
      injection hcontra with h2
      exact absurd h2 (by decide)
    | some sk =>
      intro hcontra
      rw [show sign ⟨pub1, some sk⟩ data =
        .ok (bigIntToBase64 (modPow (dataToBigInt data) sk.d sk.n)) from rfl] at hcontra
      exact Except.noConfusion hcontra
  · cases pub1 with
    | none =>
      intro hcontra
      rw [show verify ⟨none, priv1⟩ data sig = .error verifyMissingKeyMsg from rfl] at hcontra
      injection hcontra with h2
      exact absurd h2 (by decide)
    | some pk2 =>
      intro hcontra
      rw [show verify ⟨some pk2, priv1⟩ data sig =
        .ok (decide (modPow (base64ToBigInt sig) pk2.e pk2.n = dataToBigInt data)) from rfl]
        at hcontra
      exact Except.noConfusion hcontra

/-- Claim C5 (amended): each of the four operations invoked without the key
it requires fails synchronously with a message that names the missing key
kind; `c5_counterexample` shows the source messages of `encrypt` and
`decrypt` do not name the operation the spec also requires. -/
theorem c5_missing_key (pub0 : Option PublicKey) (priv0 : Option PrivateKey)
    (data : JVal) (ct sig : List Nat) :
    encrypt ⟨none, priv0⟩ data = .error pubKeyMissingMsg ∧
    decrypt ⟨pub0, none⟩ ct = .error privKeyMissingMsg ∧
    sign ⟨pub0, none⟩ data = .error signMissingKeyMsg ∧
    verify ⟨none, priv0⟩ data sig = .error verifyMissingKeyMsg ∧
    containsSub "public key".toList pubKeyMissingMsg.toList = true ∧
    containsSub "private key".toList privKeyMissingMsg.toList = true ∧
    containsSub "private key".toList signMissingKeyMsg.toList = true ∧
    containsSub "public key".toList verifyMissingKeyMsg.toList = true :=
  ⟨rfl, rfl, rfl, rfl, by decide, by decide, by decide, by decide⟩

/-- Counterexample for C5: the missing-key messages of the source's `encrypt`
and `decrypt` do not contain the substring "crypt", hence name neither
operation, against the spec's requirement that the message identify which
operation was invoked. -/
theorem c5_counterexample :
    encrypt ⟨none, some ⟨27, 55⟩⟩ (.jstr [42]) = .error pubKeyMissingMsg ∧
    decrypt ⟨some ⟨3, 55⟩, none⟩ [] = .error privKeyMissingMsg ∧
    containsSub "crypt".toList pubKeyMissingMsg.toList = false ∧
    containsSub "crypt".toList privKeyMissingMsg.toList = false :=
  ⟨rfl, rfl, by decide, by decide⟩

/-- Claim C6: `dataToBigInt` is the big-endian base-256 value of the string's
bytes (a non-string is serialised to JSON text first, the empty string gives
0), and `bigIntToData` maps 0 to the empty string and a nonzero integer to
the value-faithful, minimal (nonzero leading byte) decoded byte text, parsed
as JSON when possible and returned raw otherwise. -/
theorem c6_codec (s : List Nat) (v : JVal) (k : Nat)
    (hv : ∀ t, v ≠ .jstr t) (hk : k ≠ 0) :
    dataToBigInt (.jstr s) = bytesToNat s ∧
    dataToBigInt v = bytesToNat (stringifyV v) ∧
    dataToBigInt (.jstr []) = 0 ∧
    bigIntToData 0 = .jstr [] ∧
    bytesToNat (bigIntToBytes k) = k ∧
    bytesOK (bigIntToBytes k) = true ∧
    headNZ (bigIntToBytes k) = true ∧
    bigIntToData k = (match parse (bigIntToBytes k) with
      | some w => w
      | none => .jstr (bigIntToBytes k)) := by
  refine ⟨bufToBigInt_eq s, ?_, rfl, rfl, bigIntToBytes_val k, bigIntToBytes_bytesOK k,
    bigIntToBytes_headNZ k hk, ?_⟩
  · have hbytes : dataBytes v = stringifyV v := by
      cases v with
      | jstr t => exact absurd rfl (hv t)
      | jnull => rfl
      | jbool b => rfl
      | jnum t => rfl
      | jarr xs => rfl
      | jobj fs => rfl
    rw [dataToBigInt, hbytes, bufToBigInt_eq]
  · rw [bigIntToData, if_neg hk]

/-- Witness for C6 at the string `h`, the value `null` and the integer 5. -/
theorem c6_codec_witness :
    dataToBigInt (.jstr [104]) = bytesToNat [104] ∧
    dataToBigInt .jnull = bytesToNat (stringifyV .jnull) ∧
    dataToBigInt (.jstr []) = 0 ∧
    bigIntToData 0 = .jstr [] ∧
    bytesToNat (bigIntToBytes 5) = 5 ∧
    bytesOK (bigIntToBytes 5) = true ∧
    headNZ (bigIntToBytes 5) = true ∧
    bigIntToData 5 = (match parse (bigIntToBytes 5) with
      | some w => w
      | none => .jstr (bigIntToBytes 5)) :=
  c6_codec [104] .jnull 5 (fun t h => JVal.noConfusion h) (by decide)

/-- Claim C7: importing an exported key restores it exactly, for every public
and every private key. -/
theorem c7_key_roundtrip (pk : PublicKey) (sk : PrivateKey) :
    importPublicKey (exportPublicKey pk) = some pk ∧
    importPrivateKey (exportPrivateKey sk) = some sk := by
  constructor
  · refine importPublicKey_of_decode _ pk ?_
    rw [exportPublicKey_body]
    exact b64_roundtrip _ (stringify_bytesOK _ (exportPublicKey_WF pk))
  · refine importPrivateKey_of_decode _ sk ?_
    rw [exportPrivateKey_body]
    exact b64_roundtrip _ (stringify_bytesOK _ (exportPrivateKey_WF sk))

/-- Claim C8: the generator passes `bitLength / 2` (floored) to the prime
oracle, and a returned pair comes from the first drawn pair with distinct
primes and totient coprime to 65537 (every earlier draw being rejected for
violating one of the two), with `e = 65537`, `n = p * q` in both halves and
`d` the modular inverse of `e` modulo the totient; when the oracle honours
the size contract the chosen primes have exactly `primeBits` bits. -/
theorem c8_generate_keys (draw : Nat → Nat × Nat) (bitLength fuel k0 : Nat) (kp : KeyPair)
    (hsz : ∀ k, 2 ^ (primeBits bitLength - 1) ≤ (draw k).1 ∧
      (draw k).1 < 2 ^ primeBits bitLength ∧
      2 ^ (primeBits bitLength - 1) ≤ (draw k).2 ∧ (draw k).2 < 2 ^ primeBits bitLength)
    (hgen : generateKeysLoop draw fuel k0 = some kp) :
    primeBits bitLength = bitLength / 2 ∧
    ∃ i, k0 ≤ i ∧
      (∀ j, k0 ≤ j → j < i → (draw j).1 = (draw j).2 ∨
        Nat.gcd 65537 (((draw j).1 - 1) * ((draw j).2 - 1)) ≠ 1) ∧
      (draw i).1 ≠ (draw i).2 ∧
      Nat.gcd 65537 (((draw i).1 - 1) * ((draw i).2 - 1)) = 1 ∧
      2 ^ (primeBits bitLength - 1) ≤ (draw i).1 ∧ (draw i).1 < 2 ^ primeBits bitLength ∧
      2 ^ (primeBits bitLength - 1) ≤ (draw i).2 ∧ (draw i).2 < 2 ^ primeBits bitLength ∧
      kp.publicKey.e = 65537 ∧
      kp.publicKey.n = (draw i).1 * (draw i).2 ∧
      kp.privateKey.n = (draw i).1 * (draw i).2 ∧
      kp.privateKey.d = modInv 65537 (((draw i).1 - 1) * ((draw i).2 - 1)) := by
  obtain ⟨i, hge, hrej, hne, hgcd, hkp⟩ := generateKeysLoop_spec draw fuel k0 kp hgen
  obtain ⟨h1, h2, h3, h4⟩ := hsz i
  subst hkp
  exact ⟨rfl, i, hge, hrej, hne, hgcd, h1, h2, h3, h4, rfl, rfl, rfl, rfl⟩

/-- Witness for C8: the oracle `drawB` always answers with the 4-bit primes
11 and 13, and the loop with one unit of fuel returns the expected pair. -/
theorem c8_generate_keys_witness :
    primeBits 8 = 8 / 2 ∧
    ∃ i, 0 ≤ i ∧
      (∀ j, 0 ≤ j → j < i → (drawB j).1 = (drawB j).2 ∨
        Nat.gcd 65537 (((drawB j).1 - 1) * ((drawB j).2 - 1)) ≠ 1) ∧
      (drawB i).1 ≠ (drawB i).2 ∧
      Nat.gcd 65537 (((drawB i).1 - 1) * ((drawB i).2 - 1)) = 1 ∧
      2 ^ (primeBits 8 - 1) ≤ (drawB i).1 ∧ (drawB i).1 < 2 ^ primeBits 8 ∧
      2 ^ (primeBits 8 - 1) ≤ (drawB i).2 ∧ (drawB i).2 < 2 ^ primeBits 8 ∧
      (⟨⟨65537, 143⟩, ⟨modInv 65537 120, 143⟩⟩ : KeyPair).publicKey.e = 65537 ∧
      (⟨⟨65537, 143⟩, ⟨modInv 65537 120, 143⟩⟩ : KeyPair).publicKey.n =
        (drawB i).1 * (drawB i).2 ∧
      (⟨⟨65537, 143⟩, ⟨modInv 65537 120, 143⟩⟩ : KeyPair).privateKey.n =
        (drawB i).1 * (drawB i).2 ∧
      (⟨⟨65537, 143⟩, ⟨modInv 65537 120, 143⟩⟩ : KeyPair).privateKey.d =
        modInv 65537 (((drawB i).1 - 1) * ((drawB i).2 - 1)) :=
  c8_generate_keys drawB 8 1 0 ⟨⟨65537, 143⟩, ⟨modInv 65537 120, 143⟩⟩
    (fun _ => (by decide : 8 ≤ 11 ∧ 11 < 16 ∧ 8 ≤ 13 ∧ 13 < 16)) rfl

/-- Claim C9 (amended): each import fails exactly when the base64-decoded
bytes are not valid JSON key material — not JSON at all, JSON that is not an
object, an object whose required field (`e` or `d`, and `n`) is absent, or
one whose field does not convert to a big integer; `c9_counterexample` shows
the invalid-base64 half of the spec's claim is false, because the decoder
silently drops bytes outside the base64 alphabet instead of failing. -/
theorem c9_import_guard (s : List Nat) :
    (importPublicKey s = none ↔
      ¬ ∃ fs e n, parse (b64decode s) = some (.jobj fs) ∧
        fieldToBigInt (lookupLast [101] fs) = some e ∧
        fieldToBigInt (lookupLast [110] fs) = some n) ∧
    (importPrivateKey s = none ↔
      ¬ ∃ fs d n, parse (b64decode s) = some (.jobj fs) ∧
        fieldToBigInt (lookupLast [100] fs) = some d ∧
        fieldToBigInt (lookupLast [110] fs) = some n) := by
  constructor
  · rw [importPublicKey]
    cases hp : parse (b64decode s) with
    | none => simp
    | some v =>
      cases v with
      | jobj fs =>
        cases he : fieldToBigInt (lookupLast [101] fs) with
        | none => simp [he]
        | some e =>
          cases hn : fieldToBigInt (lookupLast [110] fs) with
          | none => simp [he, hn]
          | some n => simp [he, hn]
      | jnull => simp
      | jbool b => simp
      | jnum t => simp
      | jstr t => simp
      | jarr xs => simp
  · rw [importPrivateKey]
    cases hp : parse (b64decode s) with
    | none => simp
    | some v =>
      cases v with
      | jobj fs =>
        cases hd : fieldToBigInt (lookupLast [100] fs) with
        | none => simp [hd]
        | some d =>
          cases hn : fieldToBigInt (lookupLast [110] fs) with
          | none => simp [hd, hn]
          | some n => simp [hd, hn]
      | jnull => simp
      | jbool b => simp
      | jnum t => simp
      | jstr t => simp
      | jarr xs => simp

/-- Counterexample for C9: prefixing an exported key with the byte `!` yields
an input that is not valid base64, yet `importPublicKey` still returns the
key, because the lenient decoder ignores the foreign byte: an import of
invalid base64 is not a hard failure. -/
theorem c9_counterexample :
    isValidB64Str (33 :: exportPublicKey ⟨3, 15⟩) = false ∧
    importPublicKey (33 :: exportPublicKey ⟨3, 15⟩) = some ⟨3, 15⟩ := by
  refine ⟨rfl, ?_⟩
  refine importPublicKey_of_decode _ ⟨3, 15⟩ ?_
  rw [show b64decode (33 :: exportPublicKey ⟨3, 15⟩) = b64decode (exportPublicKey ⟨3, 15⟩)
    from rfl]
  rw [exportPublicKey_body]
  exact b64_roundtrip _ (stringify_bytesOK _ (exportPublicKey_WF ⟨3, 15⟩))

/-- Claim C10: an empty string supplied for either constructor argument is
treated as no key at all — the slot resolves to empty without consulting any
importer and without an error — and the operations needing the absent key
later fail with their missing-key message. -/
theorem c10_empty_string_key (impP : List Nat → Option PublicKey)
    (impS : List Nat → Option PrivateKey) (data : JVal) (ct sig : List Nat) :
    resolveKey impP (some (Sum.inr [])) = some none ∧
    resolveKey impS (some (Sum.inr [])) = some none ∧
    construct (some (Sum.inr [])) (some (Sum.inr [])) = some ⟨none, none⟩ ∧
    encrypt ⟨none, none⟩ data = .error pubKeyMissingMsg ∧
    decrypt ⟨none, none⟩ ct = .error privKeyMissingMsg ∧
    sign ⟨none, none⟩ data = .error signMissingKeyMsg ∧
    verify ⟨none, none⟩ data sig = .error verifyMissingKeyMsg :=
  ⟨rfl, rfl, rfl, rfl, rfl, rfl, rfl⟩
